import Mathlib

/-!
Verification development for the iowarp-hooks hook installer.

The Python sources are shallowly embedded as pure Lean functions:
Python dicts become insertion-ordered association lists (`List (String × α)`)
with `lookupKey` / `setKey` / `eraseKey` mirroring `d[k]` reads, `d[k] = v`
writes and `del d[k]`; JSON values become the inductive `JVal`; file-system
trees become the inductive `FsTree`; interactive prompts become an oracle
function supplied as an argument; paths on disk are modelled as lists of
path segments.
-/

namespace IowarpHooks

/-! ## Association lists: the model of Python `dict` (insertion ordered) -/

/-- `d.get(k)` / `k in d`: first binding of `k`, if any. -/
def lookupKey {α : Type} (l : List (String × α)) (k : String) : Option α :=
  match l with
  | [] => none
  | (k', v) :: rest => if k' = k then some v else lookupKey rest k

/-- `d[k] = v`: replace the binding of `k` in place, or append it at the end
(Python dicts keep insertion order and keep the position of updated keys). -/
def setKey {α : Type} (l : List (String × α)) (k : String) (v : α) :
    List (String × α) :=
  match l with
  | [] => [(k, v)]
  | (k', v') :: rest =>
    if k' = k then (k, v) :: rest else (k', v') :: setKey rest k v

/-- `del d[k]`: drop the first binding of `k`. -/
def eraseKey {α : Type} (l : List (String × α)) (k : String) :
    List (String × α) :=
  match l with
  | [] => []
  | (k', v') :: rest =>
    if k' = k then rest else (k', v') :: eraseKey rest k

/-- The keys of a dict, in order. -/
def keysOf {α : Type} (l : List (String × α)) : List String :=
  l.map Prod.fst

/-! ## JSON values (`JVal`): the model of the data `json.load` produces -/

/-- A JSON value: the shape of hook-entry objects, hook templates and
settings members. -/
inductive JVal where
  | str : String → JVal
  | num : Int → JVal
  | bool : Bool → JVal
  | null : JVal
  | arr : List JVal → JVal
  | obj : List (String × JVal) → JVal
deriving Repr

/-! ## Template processor (`templates.py`, class `TemplateProcessor`) -/

/-- The opening brace character. -/
def lbrace : Char := Char.ofNat 123

/-- The closing brace character. -/
def rbrace : Char := Char.ofNat 125

/-- Python `str.replace`: replace every non-overlapping occurrence of `pat`
left to right, never rescanning the replacement text.  `fuel` is the length
of the subject string, which every step strictly decreases when `pat` is
nonempty (all patterns used by the installer are nonempty). -/
def replaceAll (pat repl : List Char) : Nat → List Char → List Char
  | 0, s => s
  | _ + 1, [] => []
  | fuel + 1, c :: rest =>
    if pat ≠ [] ∧ pat.isPrefixOf (c :: rest) then
      repl ++ replaceAll pat repl fuel ((c :: rest).drop pat.length)
    else c :: replaceAll pat repl fuel rest

/-- Python `content.replace(pat, repl)` on strings. -/
def pyReplace (s pat repl : String) : String :=
  String.mk (replaceAll pat.data repl.data s.data.length s.data)

/-- Drop leading spaces. -/
def dropSpaces : List Char → List Char
  | ' ' :: rest => dropSpaces rest
  | l => l

/-- Take the longest leading run of identifier characters. -/
def spanIdent : List Char → List Char × List Char
  | [] => ([], [])
  | c :: rest =>
    if c.isAlphanum ∨ c = '_' then
      let p := spanIdent rest
      (c :: p.1, p.2)
    else ([], c :: rest)

/-- After an opening `\x7b\x7b`, parse ` name \x7d\x7d` and return the
variable name with the remaining text. -/
def parseInterp (l : List Char) : Option (String × List Char) :=
  let l1 := dropSpaces l
  let p := spanIdent l1
  let l3 := dropSpaces p.2
  match p.1, l3 with
  | [], _ => none
  | _, a :: b :: r =>
    if a = rbrace ∧ b = rbrace then some (String.mk p.1, r) else none
  | _, _ => none

/-- Modelled from the spec: the "general expression template engine"
(the external Jinja2 library, an out-of-scope collaborator) restricted to
the variable-interpolation fragment the hook templates use: each
`\x7b\x7b name \x7d\x7d` is replaced by the variable's value (empty when
unbound), all other text passes through.  `fuel` is the text length, which
every step strictly decreases. -/
def jinjaCore (vars : List (String × String)) : Nat → List Char → List Char
  | 0, s => s
  | _ + 1, [] => []
  | fuel + 1, c1 :: rest =>
    if c1 = lbrace then
      match rest with
      | c2 :: rest2 =>
        if c2 = lbrace then
          match parseInterp rest2 with
          | some (name, r) =>
            ((lookupKey vars name).getD "").data ++ jinjaCore vars fuel r
          | none => c1 :: jinjaCore vars fuel rest
        else c1 :: jinjaCore vars fuel rest
      | [] => [c1]
    else c1 :: jinjaCore vars fuel rest

/-- `Template(content).render(**vars)` of the modelled engine. -/
def jinjaRender (content : String) (vars : List (String × String)) : String :=
  String.mk (jinjaCore vars content.data.length content.data)

/-- `TemplateProcessor.process_string`: first the backward-compatibility
pass replacing each literal `\x7bname\x7d` for every supplied variable in
order, then the engine pass over the result. -/
def process_string (content : String) (vars : List (String × String)) :
    String :=
  let replaced := vars.foldl
    (fun c kv => pyReplace c ("\x7b" ++ kv.1 ++ "\x7d") kv.2) content
  jinjaRender replaced vars

mutual
/-- `TemplateProcessor.process_data`: strings are rendered, dicts and lists
are mapped recursively (keys preserved), all other values pass through. -/
def process_data (vars : List (String × String)) : JVal → JVal
  | .str s => .str (process_string s vars)
  | .num n => .num n
  | .bool b => .bool b
  | .null => .null
  | .arr xs => .arr (process_dataList vars xs)
  | .obj kvs => .obj (process_dataObj vars kvs)

/-- `process_data` over the elements of a JSON array. -/
def process_dataList (vars : List (String × String)) :
    List JVal → List JVal
  | [] => []
  | x :: xs => process_data vars x :: process_dataList vars xs

/-- `process_data` over the members of a JSON object. -/
def process_dataObj (vars : List (String × String)) :
    List (String × JVal) → List (String × JVal)
  | [] => []
  | (k, v) :: kvs => (k, process_data vars v) :: process_dataObj vars kvs
end

/-! ## File-system trees, for the hook-file bookkeeping of `installer.py`.
Paths are modelled as lists of segments (`"hooks/x.py"` ↦ `["hooks", "x.py"]`). -/

/-- A directory entry: a plain file or a directory with named children in
listing order. -/
inductive FsTree where
  | file : FsTree
  | node : List (String × FsTree) → FsTree
deriving Repr

/-- Whether a tree is a directory. -/
def FsTree.isDir : FsTree → Bool
  | .file => false
  | .node _ => true

/-- Whether a tree is a directory with no entries at all
(`not any(dir_path.iterdir())`). -/
def FsTree.isEmptyDir : FsTree → Bool
  | .file => false
  | .node cs => cs.isEmpty

mutual
/-- `full_path.exists() → full_path.unlink()` for one recorded path:
delete the file at the segment path, tolerating missing paths, and leaving
directories alone. -/
def deletePath : FsTree → List String → FsTree
  | t, [] => t
  | .file, _ :: _ => .file
  | .node cs, n :: rest => .node (deletePathChildren cs n rest)

/-- `deletePath` over a directory's children. -/
def deletePathChildren : List (String × FsTree) → String → List String →
    List (String × FsTree)
  | [], _, _ => []
  | (m, sub) :: cs, n, rest =>
    if m = n then
      match rest, sub with
      | [], .file => cs
      | [], .node _ => (m, sub) :: cs
      | _ :: _, _ => (m, deletePath sub rest) :: cs
    else (m, sub) :: deletePathChildren cs n rest
end

mutual
/-- The empty-directory sweep of `uninstall_hook_set`: `rglob` enumerates
directories parent-first and each directory is checked for emptiness at
visit time, so a directory is removed exactly when it is empty before the
sweep; a directory whose subdirectories are removed later in the sweep
stays. -/
def pruneEmptyDirs : FsTree → FsTree
  | .file => .file
  | .node cs => .node (pruneEmptyDirsList cs)

/-- The sweep over a directory's children, in listing order: a child that
is an empty directory at visit time is removed; any other child is kept
and, being visited later in the enumeration, swept inside afterwards. -/
def pruneEmptyDirsList : List (String × FsTree) → List (String × FsTree)
  | [] => []
  | (n, t) :: rest =>
    if t.isEmptyDir then pruneEmptyDirsList rest
    else (n, pruneEmptyDirs t) :: pruneEmptyDirsList rest
end

mutual
/-- Following the spec's words, for comparison with the code's sweep:
"Remove now-empty directories left behind under the hooks tree
(bottom-up)" — children are swept first, and a directory whose swept
children are all gone is removed too. -/
def pruneEmptyDirsBottomUp : FsTree → FsTree
  | .file => .file
  | .node cs => .node (pruneBottomUpList cs)

/-- The bottom-up sweep over a directory's children: each child is swept
inside first, and is removed when what is left of it is an empty
directory. -/
def pruneBottomUpList : List (String × FsTree) → List (String × FsTree)
  | [] => []
  | (n, t) :: rest =>
    let t2 := pruneEmptyDirsBottomUp t
    if t2.isEmptyDir then pruneBottomUpList rest
    else (n, t2) :: pruneBottomUpList rest
end

/-- Apply the empty-directory sweep to the `hooks` subdirectory of the
target directory, when it exists and is a directory. -/
def pruneHooksSubdir (t : FsTree) : FsTree :=
  match t with
  | .file => .file
  | .node cs => .node (cs.map fun c =>
      if c.1 = "hooks" ∧ c.2.isDir then (c.1, pruneEmptyDirs c.2) else c)

/-! ## Installer state (`installer.py`, class `HookInstaller`) -/

/-- The parsed `settings.json`: the host tool's Settings Store.  The
top-level JSON object is split into its `"hooks"` member (`none` when the
key is absent; event type ↦ ordered entry list) and the remaining members
in order.  The installer only ever touches the `"hooks"` member; the
member's position inside the object is not tracked. -/
structure SettingsStore where
  hooks : Option (List (String × List JVal))
  extra : List (String × JVal)
deriving Repr

/-- One Installed Hook Set Record of the Metadata Store.  `installed_files`
holds target-relative paths as segment lists, in the order written. -/
structure HookRecord where
  installed_files : List (List String)
  hook_entries : List (String × Nat)
  inputs : List (String × String)
  snapshot : List (String × JVal)
deriving Repr

/-- The parsed `.hook_metadata.json`: hook-set name ↦ record. -/
structure MetadataStore where
  installed_hook_sets : List (String × HookRecord)
deriving Repr

/-- The static hook-set configuration (`config.yaml`): the display
metadata snapshot fields and the event type ↦ entry-template map. -/
structure HookSetConfig where
  name : Option JVal
  version : Option JVal
  description : Option JVal
  hooks : List (String × JVal)
deriving Repr

/-- The per-target persistent state the installer reads and writes:
the two store files (`none` = the file does not exist) and the target
directory tree. -/
structure TargetState where
  settingsFile : Option SettingsStore
  metadataFile : Option MetadataStore
  tree : FsTree
deriving Repr

/-- The loop body of `_update_settings`: render one entry template, append
it to its event type's list (creating the list when absent) and record the
pre-append length, keyed by event type. -/
def addEntriesAux (inputs : List (String × String)) :
    List (String × JVal) → List (String × List JVal) × List (String × Nat) →
    List (String × List JVal) × List (String × Nat)
  | [], acc => acc
  | (t, tmpl) :: rest, (hooks, entries) =>
    let e := process_data inputs tmpl
    let l := (lookupKey hooks t).getD []
    addEntriesAux inputs rest
      (setKey hooks t (l ++ [e]), setKey entries t l.length)

/-- All settings-store appends of one install, with the resulting
`hook_entries` map. -/
def addEntries (inputs : List (String × String))
    (cfgHooks : List (String × JVal)) (hooks : List (String × List JVal)) :
    List (String × List JVal) × List (String × Nat) :=
  addEntriesAux inputs cfgHooks (hooks, [])

/-- `HookInstaller._update_settings`: load both stores (or start empty),
ensure the `"hooks"` section, append every rendered entry, store the
Installed Hook Set Record under the hook-set name, and write both files.
`files` is the list of target-relative paths recorded by the copy loop of
`install_hook_set`. -/
def installHookSet (settings0 : Option SettingsStore)
    (metadata0 : Option MetadataStore) (cfg : HookSetConfig)
    (inputs : List (String × String)) (hookSetName : String)
    (files : List (List String)) : SettingsStore × MetadataStore :=
  let s := settings0.getD ⟨none, []⟩
  let m := metadata0.getD ⟨[]⟩
  let h0 := s.hooks.getD []
  let p := addEntries inputs cfg.hooks h0
  let record : HookRecord :=
    { installed_files := files
      hook_entries := p.2
      inputs := inputs
      snapshot := [("name", cfg.name.getD .null),
                   ("version", cfg.version.getD .null),
                   ("description", cfg.description.getD .null)] }
  (⟨some p.1, s.extra⟩, ⟨setKey m.installed_hook_sets hookSetName record⟩)

/-- Uninstall error taxonomy: the Not-Installed conditions. -/
inductive UninstallError where
  | noMetadata : UninstallError
  | notInstalled : UninstallError
deriving Repr

/-- Stable insertion into a list sorted descending by the recorded index:
the model of Python's stable `list.sort(key=..., reverse=True)`. -/
def insertDescByIdx (x : String × Nat) :
    List (String × Nat) → List (String × Nat)
  | [] => [x]
  | y :: ys => if x.2 < y.2 then y :: insertDescByIdx x ys else x :: y :: ys

/-- `entries_to_remove.sort(key=lambda x: x[1], reverse=True)`. -/
def sortDescByIdx : List (String × Nat) → List (String × Nat)
  | [] => []
  | x :: xs => insertDescByIdx x (sortDescByIdx xs)

/-- One iteration of the entry-removal loop of `uninstall_hook_set`: if the
event type is still present, drop every positional entry whose index is
recorded for that event type anywhere in `full` (the whole sorted
`entries_to_remove` list), and delete the event type's key when its list
becomes empty. -/
def removeStep (full : List (String × Nat))
    (hooks : List (String × List JVal)) (e : String × Nat) :
    List (String × List JVal) :=
  match lookupKey hooks e.1 with
  | none => hooks
  | some l =>
    let idxs := (full.filter (fun p => p.1 = e.1)).map Prod.snd
    let kept := (l.enum.filter (fun p => ¬ p.1 ∈ idxs)).map Prod.snd
    if kept.isEmpty then eraseKey hooks e.1 else setKey hooks e.1 kept

/-- The entry-removal phase of `uninstall_hook_set`: filter the recorded
entries down to event types still present, sort them by index descending,
and run the removal loop. -/
def removeRecordedEntries (hooks : List (String × List JVal))
    (entries : List (String × Nat)) : List (String × List JVal) :=
  let toRemove := (sortDescByIdx (entries.filter
    (fun e => (lookupKey hooks e.1).isSome)))
  toRemove.foldl (removeStep toRemove) hooks

/-- `HookInstaller.uninstall_hook_set`: fail when no Metadata Store exists
or the name is absent, otherwise delete the recorded files, sweep empty
directories under the hooks tree, remove the recorded settings entries,
drop the record, and persist each store — deleting `settings.json` when no
hook entries remain and `.hook_metadata.json` when no hook sets remain. -/
def uninstallHookSet (st : TargetState) (hookSetName : String) :
    Except UninstallError TargetState :=
  match st.metadataFile with
  | none => .error .noMetadata
  | some m =>
    let settings := st.settingsFile.getD ⟨some [], []⟩
    match lookupKey m.installed_hook_sets hookSetName with
    | none => .error .notInstalled
    | some record =>
      let tree1 := record.installed_files.foldl deletePath st.tree
      let tree2 := pruneHooksSubdir tree1
      let hooks1 := removeRecordedEntries (settings.hooks.getD [])
        record.hook_entries
      let m1 : MetadataStore :=
        ⟨eraseKey m.installed_hook_sets hookSetName⟩
      let settingsFile1 : Option SettingsStore :=
        match settings.hooks with
        | none => none
        | some _ => if hooks1.isEmpty then none else some ⟨some hooks1, settings.extra⟩
      let metadataFile1 : Option MetadataStore :=
        if m1.installed_hook_sets.isEmpty then none else some m1
      .ok ⟨settingsFile1, metadataFile1, tree2⟩

/-! ## Interactive installer (`interactive/paths.py`, `interactive/actions.py`
and `interactive/installer.py`) -/

/-- `InstallationPath`: the three path types. -/
inductive InstallationPath where
  | full : InstallationPath
  | default : InstallationPath
  | exit : InstallationPath
deriving Repr, DecidableEq

/-- One declared input of a hook set: the parsed
`{prompt, default, required}` spec, with `required` already resolved to its
`True` default. -/
structure InputSpec where
  prompt : Option String
  default : Option String
  required : Bool
deriving Repr

/-- The four pre-set InfluxDB connection parameters of
`_collect_parameters` for the `observability_viz` hook's `docker_deploy`
path, in assignment order. -/
def dockerPresets : List (String × String) :=
  [("influxdb_token", "claude-observability-token"),
   ("influxdb_url", "http://localhost:8086"),
   ("influxdb_org", "events-org"),
   ("influxdb_bucket", "application-events")]

/-- The `should_ask` decision of `_collect_parameters`. -/
def shouldAsk (pathType : InstallationPath) (required : Bool) : Bool :=
  match pathType with
  | .full => true
  | .default => required
  | .exit => false

/-- The default offered by `Prompt.ask`: the declared default for a
required input, and `default or ""` for an optional one. -/
def offeredDefault (spec : InputSpec) : Option String :=
  if spec.required then spec.default else some (spec.default.getD "")

/-- The prompting loop of `_collect_parameters`.  `ask` is the oracle for
`Prompt.ask`, receiving the input's name and the offered default (the
prompt text is display only).  Besides the parameter dict, the list of
issued prompts (input name, offered default) is returned in order. -/
def collectLoop (pathType : InstallationPath)
    (ask : String → Option String → String) :
    List (String × InputSpec) →
    List (String × String) × List (String × Option String) →
    List (String × String) × List (String × Option String)
  | [], acc => acc
  | (n, spec) :: rest, (inputs, asked) =>
    if shouldAsk pathType spec.required then
      let off := offeredDefault spec
      collectLoop pathType ask rest
        (setKey inputs n (ask n off), asked ++ [(n, off)])
    else
      match spec.default with
      | some d => collectLoop pathType ask rest (setKey inputs n d, asked)
      | none => collectLoop pathType ask rest (inputs, asked)

/-- `InteractiveInstaller._collect_parameters`: pre-fill the Docker
presets for `observability_viz`'s `docker_deploy` path, then run the
prompting loop over the declared inputs in order. -/
def collect_parameters (hookName pathName : String)
    (pathType : InstallationPath) (inputConfigs : List (String × InputSpec))
    (ask : String → Option String → String) :
    List (String × String) × List (String × Option String) :=
  let inputs0 := if pathName = "docker_deploy" ∧ hookName = "observability_viz"
    then dockerPresets else []
  collectLoop pathType ask inputConfigs (inputs0, [])

/-- The keys of `ActionRegistry._actions`. -/
def registeredActionTypes : List String :=
  ["show_message", "exit_with_message", "copy_docker_infrastructure",
   "validate_ports", "check_docker"]

/-- A `PathAction`: the `type` selecting the registry entry, the keyword
attributes the registered actions consume (`message`, `source`, `target`,
`ports`), and `kwargs`, the names of the keywords that were passed to
`PathAction(type, **kwargs)` and stored on the instance by `setattr`. -/
structure ActionSpec where
  type : String
  message : String
  source : String
  target : String
  ports : List Nat
  kwargs : List String
deriving Repr, DecidableEq

/-- The keys of `path_action.__dict__`: `PathAction.__init__` stores
`self.type = type` first, then each keyword attribute in order. -/
def ActionSpec.dictKeys (a : ActionSpec) : List String :=
  "type" :: a.kwargs

/-- The keyword parameters each registered action's constructor accepts:
`ShowMessageAction(message)`, `ExitWithMessageAction(message)`,
`CopyDockerInfrastructureAction(source, target)`,
`ValidatePortsAction(ports)` and `CheckDockerAction()` (no parameters).
None of them accepts a keyword named `type`. -/
def acceptedParams : String → List String
  | "show_message" => ["message"]
  | "exit_with_message" => ["message"]
  | "copy_docker_infrastructure" => ["source", "target"]
  | "validate_ports" => ["ports"]
  | _ => []

/-- Observable effects of the interactive flow. -/
inductive Event where
  | printed : String → Event
  | fileWritten : String → Event
  | processExit : Nat → Event
  | errorUnknownAction : String → Event
  | errorInstallationFailed : String → Event
  | actionFailed : String → Event
  | installerInvoked : Event
deriving Repr, DecidableEq

/-- The environment an action run probes: whether a copy source directory
exists, which ports are bound, whether Docker responds. -/
structure ActionEnv where
  sourceExists : String → Bool
  portsInUse : List Nat
  dockerAvailable : Bool

/-- How the flow ends its action phase: `raised` is an exception escaping
`_execute_path_actions`, caught by the generic handler of `run`. -/
inductive FlowOutcome where
  | continued : FlowOutcome
  | exited : FlowOutcome
  | failed : FlowOutcome
  | raised : String → FlowOutcome
deriving Repr, DecidableEq

/-- What `ActionRegistry.get_action` produces: no action for an
unregistered type, a `TypeError` naming an unexpected keyword, or a
built instance. -/
inductive GetActionResult where
  | unknown : GetActionResult
  | typeError : String → GetActionResult
  | built : GetActionResult
deriving Repr, DecidableEq

/-- `ActionRegistry.get_action(action_type, **kwargs)`: an unregistered
type yields no action; a registered type runs `action_class(**kwargs)`,
which raises `TypeError` naming an unexpected keyword whenever some key
of `kwargs` is not a constructor parameter of that class.
`_execute_path_actions` passes the whole `path_action.__dict__` as
`kwargs`, so the key `type` is always among them.  (Missing-argument
`TypeError` is not modelled separately: every registry call the program
makes already carries the unexpected `type` keyword.) -/
def get_action (t : String) (kwargKeys : List String) : GetActionResult :=
  if t ∈ registeredActionTypes then
    match kwargKeys.find? (fun k => ! (acceptedParams t).contains k) with
    | some k => .typeError k
    | none => .built
  else .unknown

/-- `execute(context)` of the registered non-exiting actions:
`show_message` prints its rendered message; `copy_docker_infrastructure`
renders and writes the bundle under the target subdirectory when the
source exists and fails otherwise; `validate_ports` warns but never fails;
`check_docker` fails when Docker is unavailable. -/
def execAction (env : ActionEnv) (inputs : List (String × String))
    (a : ActionSpec) : List Event × Bool :=
  if a.type = "show_message" then
    ([.printed (process_string a.message inputs)], true)
  else if a.type = "copy_docker_infrastructure" then
    if env.sourceExists a.source then
      ([.fileWritten a.target,
        .printed "Docker infrastructure deployed"], true)
    else ([.printed "Error: Source directory not found"], false)
  else if a.type = "validate_ports" then
    if (a.ports.filter (fun p => p ∈ env.portsInUse)).isEmpty then ([], true)
    else ([.printed "Warning: ports already in use"], true)
  else if a.type = "check_docker" then
    if env.dockerAvailable then ([.printed "Docker is available"], true)
    else ([.printed "Docker is not available"], false)
  else ([], false)

/-- `InteractiveInstaller._execute_path_actions`: resolve each action in
declared order with `ActionRegistry.get_action(path_action.type,
**path_action.__dict__)` — no action (unknown type) prints a
Configuration error naming the type and aborts; a `TypeError` raised
while instantiating a registered action propagates out of the loop; a
built action executes (`exit_with_message` prints and terminates the
process with status 0; a failing action aborts); otherwise continue. -/
def executePathActions (env : ActionEnv) (inputs : List (String × String)) :
    List ActionSpec → List Event × FlowOutcome
  | [] => ([], .continued)
  | a :: rest =>
    match get_action a.type a.dictKeys with
    | .unknown => ([.errorUnknownAction a.type], .failed)
    | .typeError k => ([], .raised k)
    | .built =>
      if a.type = "exit_with_message" then
        ([.printed (process_string a.message inputs), .processExit 0],
         .exited)
      else
        let r := execAction env inputs a
        if r.2 then
          let k := executePathActions env inputs rest
          (r.1 ++ k.1, k.2)
        else (r.1 ++ [.actionFailed a.type], .failed)

/-- The tail of `InteractiveInstaller.run` after parameter collection:
execute the selected path's actions; an exception escaping the action
loop is caught by the generic handler of `run`, which prints the
Installation-failed message and reports failure; otherwise — unless the
flow failed, exited, or the path type is EXIT — delegate to
`HookInstaller.install_hook_set` (the `installerInvoked` event). -/
def runFlow (env : ActionEnv) (pathType : InstallationPath)
    (actions : List ActionSpec) (inputs : List (String × String)) :
    List Event × Bool :=
  let r := executePathActions env inputs actions
  match r.2 with
  | .raised k => (r.1 ++ [.errorInstallationFailed k], false)
  | .failed => (r.1, false)
  | .exited => (r.1, true)
  | .continued =>
    if pathType = InstallationPath.exit then (r.1, true)
    else (r.1 ++ [.installerInvoked], true)

/-! ## Specification predicates used by the claim theorems -/

/-- The path-type parameter policy of `_collect_parameters`: what FULL,
DEFAULT and EXIT prompt for and what they substitute silently, for a given
declared-input list and prompt oracle. -/
def ParameterPolicy (hookName pathName : String)
    (cfgs : List (String × InputSpec))
    (ask : String → Option String → String) : Prop :=
  (∀ spec d, spec.default = some d → offeredDefault spec = some d) ∧
  ((collect_parameters hookName pathName .full cfgs ask).2 =
      cfgs.map (fun p => (p.1, offeredDefault p.2)) ∧
    ∀ n spec, (n, spec) ∈ cfgs →
      lookupKey (collect_parameters hookName pathName .full cfgs ask).1 n =
        some (ask n (offeredDefault spec))) ∧
  ((collect_parameters hookName pathName .default cfgs ask).2 =
      (cfgs.filter (fun p => p.2.required)).map
        (fun p => (p.1, offeredDefault p.2)) ∧
    (∀ n spec, (n, spec) ∈ cfgs → spec.required = true →
      lookupKey
          (collect_parameters hookName pathName .default cfgs ask).1 n =
        some (ask n (offeredDefault spec))) ∧
    (∀ n spec d, (n, spec) ∈ cfgs → spec.required = false →
      spec.default = some d →
      lookupKey
          (collect_parameters hookName pathName .default cfgs ask).1 n =
        some d)) ∧
  ((collect_parameters hookName pathName .exit cfgs ask).2 = [] ∧
    ∀ n spec d, (n, spec) ∈ cfgs → spec.default = some d →
      lookupKey (collect_parameters hookName pathName .exit cfgs ask).1 n =
        some d)

/-- The amended pre-set behaviour: the four Docker parameters are set
before the prompting loop, and survive into the returned map only for
names the loop never reassigns; a declared default of a non-prompted
declared input overrides the pre-set value. -/
def DockerPresetBehavior (pathType : InstallationPath)
    (cfgs : List (String × InputSpec))
    (ask : String → Option String → String) : Prop :=
  (∀ n v, (n, v) ∈ dockerPresets → n ∉ keysOf cfgs →
    lookupKey (collect_parameters "observability_viz" "docker_deploy"
      pathType cfgs ask).1 n = some v) ∧
  (∀ n spec d, (n, spec) ∈ cfgs → spec.required = false →
    spec.default = some d → pathType ≠ .full →
    lookupKey (collect_parameters "observability_viz" "docker_deploy"
      pathType cfgs ask).1 n = some d)

/-- An environment where every probe succeeds: copy sources exist, no
port is bound, Docker responds. -/
def alwaysEnv : ActionEnv where
  sourceExists := fun _ => true
  portsInUse := []
  dockerAvailable := true

/-- What happens to a flow whose action list `a :: rest` contains an
unregistered type: no action executes, so no file is written and the
Installer is never invoked, and the flow reports failure; the
Configuration error naming the unknown type appears exactly when the
unregistered action is first — when a registered action comes first,
instantiating it raises `TypeError` on the forwarded `type` keyword and
the flow aborts with the generic Installation-failed error instead,
never naming the unknown type. -/
def UnknownActionAbort (env : ActionEnv) (inputs : List (String × String))
    (pathType : InstallationPath) (a : ActionSpec)
    (rest : List ActionSpec) : Prop :=
  (∀ f, Event.fileWritten f ∉ (runFlow env pathType (a :: rest) inputs).1) ∧
  Event.installerInvoked ∉ (runFlow env pathType (a :: rest) inputs).1 ∧
  (runFlow env pathType (a :: rest) inputs).2 = false ∧
  (a.type ∉ registeredActionTypes →
    runFlow env pathType (a :: rest) inputs =
      ([Event.errorUnknownAction a.type], false)) ∧
  (a.type ∈ registeredActionTypes →
    runFlow env pathType (a :: rest) inputs =
      ([Event.errorInstallationFailed "type"], false) ∧
    ∀ t, Event.errorUnknownAction t ∉
      (runFlow env pathType (a :: rest) inputs).1)

/-- Removal of the entry at one position of a list: the effect of the
enumerate-and-filter comprehension of `uninstall_hook_set` on one
recorded index. -/
def removeIdx {α : Type} : List α → Nat → List α
  | [], _ => []
  | _ :: xs, 0 => xs
  | x :: xs, n + 1 => x :: removeIdx xs n

/-- The effect of one removal-loop iteration on one event type, in the
common case of distinct recorded event types: drop the entry at the
recorded index and erase the event type when its list empties. -/
def removeEntryAt (hooks : List (String × List JVal)) (t : String)
    (i : Nat) : List (String × List JVal) :=
  match lookupKey hooks t with
  | none => hooks
  | some l =>
    let kept := removeIdx l i
    if kept.isEmpty then eraseKey hooks t else setKey hooks t kept

/-- What the amended C1 asserts: an install followed immediately by an
uninstall of the same hook-set name maps both store files back to their
exact pre-install parsed values, presence included, whatever the target
tree holds. -/
def RoundTripRestores (settings0 : Option SettingsStore)
    (metadata0 : Option MetadataStore) (cfg : HookSetConfig)
    (inputs : List (String × String)) (name : String)
    (files : List (List String)) : Prop :=
  ∀ tree, (uninstallHookSet
      ⟨some (installHookSet settings0 metadata0 cfg inputs name files).1,
       some (installHookSet settings0 metadata0 cfg inputs name files).2,
       tree⟩ name).map (fun st => (st.settingsFile, st.metadataFile)) =
    .ok (settings0, metadata0)

/-- What C2 asserts of one install: the stored record's `hook_entries` is
the map built during the append loop, and each recorded index is the
pre-append length of its event type's settings list, at which position
the final settings list holds exactly this hook set's rendered entry. -/
def InstallRecordsOwnIndices (settings0 : Option SettingsStore)
    (metadata0 : Option MetadataStore) (cfg : HookSetConfig)
    (inputs : List (String × String)) (hookSetName : String)
    (files : List (List String)) : Prop :=
  ∃ record,
    lookupKey (installHookSet settings0 metadata0 cfg inputs hookSetName
        files).2.installed_hook_sets hookSetName = some record ∧
    record.hook_entries =
      (addEntries inputs cfg.hooks
        ((settings0.getD ⟨none, []⟩).hooks.getD [])).2 ∧
    ∀ t i, lookupKey record.hook_entries t = some i →
      ∃ tmpl, (t, tmpl) ∈ cfg.hooks ∧
        i = ((lookupKey ((settings0.getD ⟨none, []⟩).hooks.getD []) t).getD
          []).length ∧
        ∃ l,
          lookupKey ((installHookSet settings0 metadata0 cfg inputs
            hookSetName files).1.hooks.getD []) t = some l ∧
          l[i]? = some (process_data inputs tmpl) ∧ l.length = i + 1

/-- What C5 asserts of one install: the persisted settings object keeps
its non-hooks members untouched, its hooks member holds exactly the prior
lists plus this hook set's rendered entries (rendering preserves every
entry object's keys, so no bookkeeping field is introduced), and the
bookkeeping record goes to the Metadata Store alone. -/
def SettingsStayClean (settings0 : Option SettingsStore)
    (metadata0 : Option MetadataStore) (cfg : HookSetConfig)
    (inputs : List (String × String)) (hookSetName : String)
    (files : List (List String)) : Prop :=
  (installHookSet settings0 metadata0 cfg inputs hookSetName files).1.extra =
    (settings0.getD ⟨none, []⟩).extra ∧
  (∃ h1,
    (installHookSet settings0 metadata0 cfg inputs hookSetName
      files).1.hooks = some h1 ∧
    (∀ t, t ∉ keysOf cfg.hooks →
      lookupKey h1 t =
        lookupKey ((settings0.getD ⟨none, []⟩).hooks.getD []) t) ∧
    (∀ t tmpl, (t, tmpl) ∈ cfg.hooks →
      lookupKey h1 t =
        some (((lookupKey ((settings0.getD ⟨none, []⟩).hooks.getD [])
          t).getD []) ++ [process_data inputs tmpl]))) ∧
  (∀ kvs, process_data inputs (JVal.obj kvs) =
      JVal.obj (process_dataObj inputs kvs) ∧
    keysOf (process_dataObj inputs kvs) = keysOf kvs) ∧
  lookupKey (installHookSet settings0 metadata0 cfg inputs hookSetName
      files).2.installed_hook_sets hookSetName =
    some ⟨files,
      (addEntries inputs cfg.hooks
        ((settings0.getD ⟨none, []⟩).hooks.getD [])).2, inputs,
      [("name", cfg.name.getD JVal.null),
       ("version", cfg.version.getD JVal.null),
       ("description", cfg.description.getD JVal.null)]⟩

/-! ## Supporting lemmas -/

theorem lookupKey_setKey_self {α : Type} (l : List (String × α)) (k : String)
    (v : α) : lookupKey (setKey l k v) k = some v := by
  induction l with
  | nil => simp [setKey, lookupKey]
  | cons h t ih =>
    by_cases hk : h.1 = k
    · simp [setKey, hk, lookupKey]
    · simp [setKey, hk, lookupKey, ih]

theorem lookupKey_setKey_ne {α : Type} (l : List (String × α)) (k k' : String)
    (v : α) (h : k ≠ k') : lookupKey (setKey l k v) k' = lookupKey l k' := by
  induction l with
  | nil => simp [setKey, lookupKey, h]
  | cons hd t ih =>
    by_cases hk : hd.1 = k
    · simp [setKey, hk, lookupKey, h]
    · simp [setKey, hk, lookupKey, ih]

theorem setKey_of_not_mem {α : Type} (l : List (String × α)) (k : String)
    (v : α) (h : k ∉ keysOf l) : setKey l k v = l ++ [(k, v)] := by
  induction l with
  | nil => simp [setKey]
  | cons hd t ih =>
    simp only [keysOf, List.map_cons, List.mem_cons] at h
    push_neg at h
    simp [setKey, Ne.symm h.1, ih h.2]

theorem eraseKey_append_of_not_mem {α : Type} (l : List (String × α))
    (k : String) (v : α) (h : k ∉ keysOf l) :
    eraseKey (l ++ [(k, v)]) k = l := by
  induction l with
  | nil => simp [eraseKey]
  | cons hd t ih =>
    simp only [keysOf, List.map_cons, List.mem_cons] at h
    push_neg at h
    simp [eraseKey, Ne.symm h.1, ih h.2]

theorem lookupKey_eq_none_of_not_mem {α : Type} (l : List (String × α))
    (k : String) (h : k ∉ keysOf l) : lookupKey l k = none := by
  induction l with
  | nil => simp [lookupKey]
  | cons hd t ih =>
    simp only [keysOf, List.map_cons, List.mem_cons] at h
    push_neg at h
    simp [lookupKey, Ne.symm h.1, ih h.2]

theorem mem_keysOf_of_lookupKey {α : Type} {l : List (String × α)}
    {k : String} {v : α} (h : lookupKey l k = some v) : k ∈ keysOf l := by
  induction l with
  | nil => simp [lookupKey] at h
  | cons hd t ih =>
    by_cases hk : hd.1 = k
    · simp [keysOf, hk]
    · simp only [lookupKey, hk, if_false] at h
      have := ih h
      simp only [keysOf, List.map_cons, List.mem_cons]
      right
      simpa [keysOf] using this

theorem lookupKey_isSome_of_mem_keysOf {α : Type} {l : List (String × α)}
    {k : String} (h : k ∈ keysOf l) : (lookupKey l k).isSome := by
  induction l with
  | nil => simp [keysOf] at h
  | cons hd t ih =>
    by_cases hk : hd.1 = k
    · simp [lookupKey, hk]
    · simp only [keysOf, List.map_cons, List.mem_cons] at h
      rcases h with h | h
      · exact absurd h.symm hk
      · simp only [lookupKey, hk, if_false]
        exact ih (by simpa [keysOf] using h)

theorem lookupKey_eraseKey_ne {α : Type} (l : List (String × α))
    (k k' : String) (h : k ≠ k') :
    lookupKey (eraseKey l k) k' = lookupKey l k' := by
  induction l with
  | nil => simp [eraseKey]
  | cons hd t ih =>
    obtain ⟨k0, v0⟩ := hd
    by_cases hk : k0 = k
    · subst hk
      simp [eraseKey, lookupKey, h]
    · simp [eraseKey, hk, lookupKey, ih]

theorem eraseKey_of_not_mem {α : Type} (l : List (String × α)) (k : String)
    (h : k ∉ keysOf l) : eraseKey l k = l := by
  induction l with
  | nil => simp [eraseKey]
  | cons hd t ih =>
    simp only [keysOf, List.map_cons, List.mem_cons] at h
    push_neg at h
    simp [eraseKey, Ne.symm h.1, ih h.2]

theorem setKey_of_lookup_eq {α : Type} {l : List (String × α)} {k : String}
    {v : α} (h : lookupKey l k = some v) : setKey l k v = l := by
  induction l with
  | nil => simp [lookupKey] at h
  | cons hd t ih =>
    obtain ⟨k0, v0⟩ := hd
    by_cases hk : k0 = k
    · subst hk
      simp only [lookupKey, if_pos, Option.some.injEq] at h
      subst h
      simp [setKey]
    · simp only [lookupKey, hk, if_false] at h
      simp [setKey, hk, ih h]

theorem setKey_setKey_same {α : Type} (l : List (String × α)) (k : String)
    (a b : α) : setKey (setKey l k a) k b = setKey l k b := by
  induction l with
  | nil => simp [setKey]
  | cons hd t ih =>
    by_cases hk : hd.1 = k
    · simp [setKey, hk]
    · simp [setKey, hk, ih]

theorem keysOf_setKey_of_mem {α : Type} {l : List (String × α)} {k : String}
    (v : α) (h : k ∈ keysOf l) : keysOf (setKey l k v) = keysOf l := by
  induction l with
  | nil => simp [keysOf] at h
  | cons hd t ih =>
    by_cases hk : hd.1 = k
    · simp [setKey, hk, keysOf]
    · simp only [keysOf, List.map_cons, List.mem_cons] at h
      rcases h with h | h
      · exact absurd h.symm hk
      · have := ih (by simpa [keysOf] using h)
        simp [setKey, hk, keysOf] at this ⊢
        exact this

theorem nodup_keysOf_setKey {α : Type} {l : List (String × α)} {k : String}
    (v : α) (h : (keysOf l).Nodup) : (keysOf (setKey l k v)).Nodup := by
  by_cases hm : k ∈ keysOf l
  · rw [keysOf_setKey_of_mem v hm]; exact h
  · rw [setKey_of_not_mem l k v hm]
    simp only [keysOf, List.map_append, List.map_cons, List.map_nil]
    rw [List.nodup_append]
    exact ⟨h, List.nodup_singleton _, by simpa [keysOf] using hm⟩

theorem eraseKey_eraseKey_comm {α : Type} (l : List (String × α))
    (a b : String) (h : a ≠ b) :
    eraseKey (eraseKey l a) b = eraseKey (eraseKey l b) a := by
  induction l with
  | nil => simp [eraseKey]
  | cons hd t ih =>
    obtain ⟨k0, v0⟩ := hd
    by_cases hka : k0 = a
    · subst hka
      simp [eraseKey, h]
    · by_cases hkb : k0 = b
      · subst hkb
        simp [eraseKey, hka]
      · simp [eraseKey, hka, hkb, ih]

theorem setKey_eraseKey_comm {α : Type} (l : List (String × α))
    (a b : String) (v : α) (h : a ≠ b) :
    setKey (eraseKey l a) b v = eraseKey (setKey l b v) a := by
  induction l with
  | nil => simp [setKey, eraseKey, Ne.symm h]
  | cons hd t ih =>
    obtain ⟨k0, v0⟩ := hd
    by_cases hka : k0 = a
    · subst hka
      simp [eraseKey, setKey, h]
    · by_cases hkb : k0 = b
      · subst hkb
        simp [eraseKey, setKey, Ne.symm h]
      · simp [eraseKey, setKey, hka, hkb, ih]

theorem setKey_setKey_comm {α : Type} {l : List (String × α)} {a b : String}
    (va vb : α) (h : a ≠ b) (ha : a ∈ keysOf l) :
    setKey (setKey l a va) b vb = setKey (setKey l b vb) a va := by
  induction l with
  | nil => simp [keysOf] at ha
  | cons hd t ih =>
    obtain ⟨k0, v0⟩ := hd
    by_cases hka : k0 = a
    · subst hka
      simp [setKey, h]
    · by_cases hkb : k0 = b
      · subst hkb
        simp [setKey, Ne.symm h]
      · simp only [keysOf, List.map_cons, List.mem_cons] at ha
        rcases ha with ha | ha
        · exact absurd ha.symm hka
        · simp [setKey, hka, hkb, ih (by simpa [keysOf] using ha)]

theorem process_dataObj_keys (vars : List (String × String))
    (kvs : List (String × JVal)) :
    keysOf (process_dataObj vars kvs) = keysOf kvs := by
  induction kvs with
  | nil => simp [process_dataObj]
  | cons h t ih =>
    cases h
    simp [process_dataObj, keysOf] at ih ⊢
    exact ih

theorem collectLoop_fst_frame (pt : InstallationPath)
    (ask : String → Option String → String) (cfgs : List (String × InputSpec))
    (n : String) (h : n ∉ keysOf cfgs) :
    ∀ inputs asked,
      lookupKey (collectLoop pt ask cfgs (inputs, asked)).1 n =
        lookupKey inputs n := by
  induction cfgs with
  | nil => intro inputs asked; simp [collectLoop]
  | cons hd rest ih =>
    intro inputs asked
    obtain ⟨n0, s0⟩ := hd
    simp only [keysOf, List.map_cons, List.mem_cons] at h
    push_neg at h
    have hrest : n ∉ keysOf rest := by simpa [keysOf] using h.2
    by_cases hask : shouldAsk pt s0.required
    · simp only [collectLoop, hask, if_true]
      rw [ih hrest _ _, lookupKey_setKey_ne _ _ _ _ (Ne.symm h.1)]
    · have hf : shouldAsk pt s0.required = false := by simpa using hask
      cases hdef : s0.default with
      | some d =>
        simp only [collectLoop, hf, Bool.false_eq_true, if_false, hdef]
        rw [ih hrest _ _, lookupKey_setKey_ne _ _ _ _ (Ne.symm h.1)]
      | none =>
        simp only [collectLoop, hf, Bool.false_eq_true, if_false, hdef]
        exact ih hrest _ _

theorem collectLoop_snd (pt : InstallationPath)
    (ask : String → Option String → String)
    (cfgs : List (String × InputSpec)) :
    ∀ inputs asked,
      (collectLoop pt ask cfgs (inputs, asked)).2 =
        asked ++ (cfgs.filter (fun p => shouldAsk pt p.2.required)).map
          (fun p => (p.1, offeredDefault p.2)) := by
  induction cfgs with
  | nil => intro inputs asked; simp [collectLoop]
  | cons hd rest ih =>
    intro inputs asked
    obtain ⟨n0, s0⟩ := hd
    by_cases hask : shouldAsk pt s0.required
    · rw [List.filter_cons_of_pos (by simpa using hask)]
      simp only [collectLoop, hask, if_true, List.map_cons]
      rw [ih]
      simp
    · rw [List.filter_cons_of_neg (by simpa using hask)]
      have hf : shouldAsk pt s0.required = false := by simpa using hask
      cases hdef : s0.default with
      | some d =>
        simp only [collectLoop, hf, Bool.false_eq_true, if_false, hdef]
        exact ih _ _
      | none =>
        simp only [collectLoop, hf, Bool.false_eq_true, if_false, hdef]
        exact ih _ _

theorem collectLoop_lookup (pt : InstallationPath)
    (ask : String → Option String → String)
    {cfgs : List (String × InputSpec)} (hnd : (keysOf cfgs).Nodup)
    {n : String} {spec : InputSpec} (hmem : (n, spec) ∈ cfgs) :
    ∀ inputs asked,
      lookupKey (collectLoop pt ask cfgs (inputs, asked)).1 n =
        (if shouldAsk pt spec.required then
          some (ask n (offeredDefault spec))
         else match spec.default with
           | some d => some d
           | none => lookupKey inputs n) := by
  induction cfgs with
  | nil => simp at hmem
  | cons hd rest ih =>
    intro inputs asked
    obtain ⟨n0, s0⟩ := hd
    have hnd' : (keysOf rest).Nodup :=
      (List.nodup_cons.mp (by simpa [keysOf] using hnd)).2
    have hn0 : n0 ∉ keysOf rest :=
      (List.nodup_cons.mp (by simpa [keysOf] using hnd)).1
    rcases List.mem_cons.mp hmem with heq | hmem'
    · injection heq with h1 h2
      subst h1; subst h2
      by_cases hask : shouldAsk pt spec.required
      · simp only [collectLoop, hask, if_true]
        rw [collectLoop_fst_frame _ _ _ _ hn0, lookupKey_setKey_self]
      · have hf : shouldAsk pt spec.required = false := by simpa using hask
        cases hdef : spec.default with
        | some d =>
          simp only [collectLoop, hf, Bool.false_eq_true, if_false, hdef]
          rw [collectLoop_fst_frame _ _ _ _ hn0, lookupKey_setKey_self]
        | none =>
          simp only [collectLoop, hf, Bool.false_eq_true, if_false, hdef]
          exact collectLoop_fst_frame _ _ _ _ hn0 _ _
    · have hne : n0 ≠ n := by
        intro hh
        exact hn0 (hh ▸ (by
          simpa [keysOf] using List.mem_map_of_mem Prod.fst hmem'))
      by_cases hask0 : shouldAsk pt s0.required
      · simp only [collectLoop, hask0, if_true]
        rw [ih hnd' hmem' _ _]
        by_cases hask : shouldAsk pt spec.required
        · simp [hask]
        · have hf : shouldAsk pt spec.required = false := by simpa using hask
          simp only [hf, Bool.false_eq_true, if_false]
          cases spec.default with
          | some d => rfl
          | none => exact lookupKey_setKey_ne _ _ _ _ hne
      · have hf0 : shouldAsk pt s0.required = false := by simpa using hask0
        cases hdef : s0.default with
        | some d =>
          simp only [collectLoop, hf0, Bool.false_eq_true, if_false, hdef]
          rw [ih hnd' hmem' _ _]
          by_cases hask : shouldAsk pt spec.required
          · simp [hask]
          · have hf : shouldAsk pt spec.required = false := by simpa using hask
            simp only [hf, Bool.false_eq_true, if_false]
            cases spec.default with
            | some d2 => rfl
            | none => exact lookupKey_setKey_ne _ _ _ _ hne
        | none =>
          simp only [collectLoop, hf0, Bool.false_eq_true, if_false, hdef]
          exact ih hnd' hmem' _ _

theorem addEntriesAux_lookup (inputs : List (String × String)) :
    ∀ (cfgHooks : List (String × JVal)), (keysOf cfgHooks).Nodup →
    ∀ hooks entries,
      (∀ t, t ∉ keysOf cfgHooks →
        lookupKey (addEntriesAux inputs cfgHooks (hooks, entries)).1 t =
          lookupKey hooks t ∧
        lookupKey (addEntriesAux inputs cfgHooks (hooks, entries)).2 t =
          lookupKey entries t) ∧
      (∀ t tmpl, (t, tmpl) ∈ cfgHooks →
        lookupKey (addEntriesAux inputs cfgHooks (hooks, entries)).1 t =
          some (((lookupKey hooks t).getD []) ++
            [process_data inputs tmpl]) ∧
        lookupKey (addEntriesAux inputs cfgHooks (hooks, entries)).2 t =
          some ((lookupKey hooks t).getD []).length) := by
  intro cfgHooks
  induction cfgHooks with
  | nil =>
    intro _ hooks entries
    exact ⟨fun t _ => ⟨rfl, rfl⟩, fun t tmpl h => by simp at h⟩
  | cons hd rest ih =>
    intro hnd hooks entries
    obtain ⟨t0, m0⟩ := hd
    have hnd' : (keysOf rest).Nodup :=
      (List.nodup_cons.mp (by simpa [keysOf] using hnd)).2
    have ht0 : t0 ∉ keysOf rest :=
      (List.nodup_cons.mp (by simpa [keysOf] using hnd)).1
    have step : addEntriesAux inputs ((t0, m0) :: rest) (hooks, entries) =
        addEntriesAux inputs rest
          (setKey hooks t0 (((lookupKey hooks t0).getD []) ++
            [process_data inputs m0]),
           setKey entries t0 ((lookupKey hooks t0).getD []).length) := rfl
    rw [step]
    obtain ⟨ihframe, ihmem⟩ := ih hnd'
      (setKey hooks t0 (((lookupKey hooks t0).getD []) ++
        [process_data inputs m0]))
      (setKey entries t0 ((lookupKey hooks t0).getD []).length)
    constructor
    · intro t ht
      simp only [keysOf, List.map_cons, List.mem_cons] at ht
      push_neg at ht
      have hne : t0 ≠ t := Ne.symm ht.1
      obtain ⟨hf1, hf2⟩ := ihframe t (by simpa [keysOf] using ht.2)
      rw [hf1, hf2, lookupKey_setKey_ne _ _ _ _ hne,
        lookupKey_setKey_ne _ _ _ _ hne]
      exact ⟨rfl, rfl⟩
    · intro t tmpl hmem
      rcases List.mem_cons.mp hmem with heq | hmem'
      · injection heq with h1 h2
        subst h1; subst h2
        obtain ⟨hf1, hf2⟩ := ihframe t ht0
        rw [hf1, hf2, lookupKey_setKey_self, lookupKey_setKey_self]
        exact ⟨rfl, rfl⟩
      · have hne : t0 ≠ t := by
          intro hh
          exact ht0 (hh ▸ (by
            simpa [keysOf] using List.mem_map_of_mem Prod.fst hmem'))
        obtain ⟨hm1, hm2⟩ := ihmem t tmpl hmem'
        rw [hm1, hm2, lookupKey_setKey_ne _ _ _ _ hne]
        exact ⟨rfl, rfl⟩

theorem mem_of_mem_keysOf {α : Type} {l : List (String × α)} {t : String}
    (h : t ∈ keysOf l) : ∃ v, (t, v) ∈ l := by
  simp only [keysOf, List.mem_map] at h
  obtain ⟨p, hp, hpt⟩ := h
  exact ⟨p.2, by simpa [← hpt] using hp⟩

theorem insertDescByIdx_perm (x : String × Nat) (l : List (String × Nat)) :
    (insertDescByIdx x l).Perm (x :: l) := by
  induction l with
  | nil => simp [insertDescByIdx]
  | cons y ys ih =>
    by_cases h : x.2 < y.2
    · simp only [insertDescByIdx, if_pos h]
      exact (ih.cons y).trans (List.Perm.swap x y ys)
    · simp [insertDescByIdx, h]

theorem sortDescByIdx_perm (l : List (String × Nat)) :
    (sortDescByIdx l).Perm l := by
  induction l with
  | nil => simp [sortDescByIdx]
  | cons x xs ih =>
    exact (insertDescByIdx_perm x (sortDescByIdx xs)).trans (ih.cons x)

theorem eq_of_mem_of_keys_nodup {α : Type} {l : List (String × α)}
    (hnd : (keysOf l).Nodup) {x y : String × α} (hx : x ∈ l) (hy : y ∈ l)
    (hkey : x.1 = y.1) : x = y := by
  induction l with
  | nil => simp at hx
  | cons hd rest ih =>
    have hnd' : (keysOf rest).Nodup :=
      (List.nodup_cons.mp (by simpa [keysOf] using hnd)).2
    have hhd : hd.1 ∉ keysOf rest :=
      (List.nodup_cons.mp (by simpa [keysOf] using hnd)).1
    rcases List.mem_cons.mp hx with rfl | hx'
    · rcases List.mem_cons.mp hy with rfl | hy'
      · rfl
      · exact absurd (hkey ▸ (by
          simpa [keysOf] using List.mem_map_of_mem Prod.fst hy')) hhd
    · rcases List.mem_cons.mp hy with rfl | hy'
      · exact absurd (hkey ▸ (by
          simpa [keysOf] using List.mem_map_of_mem Prod.fst hx')) hhd
      · exact ih hnd' hx' hy'

theorem filter_keys_eq_singleton {full : List (String × Nat)}
    (hnd : (keysOf full).Nodup) {e : String × Nat} (he : e ∈ full) :
    full.filter (fun p => p.1 = e.1) = [e] := by
  induction full with
  | nil => simp at he
  | cons hd rest ih =>
    have hnd' : (keysOf rest).Nodup :=
      (List.nodup_cons.mp (by simpa [keysOf] using hnd)).2
    have hhd : hd.1 ∉ keysOf rest :=
      (List.nodup_cons.mp (by simpa [keysOf] using hnd)).1
    rcases List.mem_cons.mp he with rfl | he'
    · rw [List.filter_cons_of_pos (by simp)]
      have hnil : rest.filter (fun p => p.1 = e.1) = [] := by
        rw [List.filter_eq_nil_iff]
        intro p hp
        simp only [decide_eq_true_eq]
        intro hh
        exact hhd (hh ▸ (by
          simpa [keysOf] using List.mem_map_of_mem Prod.fst hp))
      rw [hnil]
    · have hne : ¬ hd.1 = e.1 := by
        intro hh
        exact hhd (hh ▸ (by
          simpa [keysOf] using List.mem_map_of_mem Prod.fst he'))
      rw [List.filter_cons_of_neg (by simpa using hne), ih hnd' he']

theorem enumFrom_filter_ne_removeIdx (l : List JVal) :
    ∀ (k i : Nat),
      ((List.enumFrom k l).filter (fun p => ¬ p.1 = k + i)).map Prod.snd =
        removeIdx l i := by
  induction l with
  | nil => intro k i; simp [removeIdx]
  | cons a xs ih =>
    intro k i
    rw [List.enumFrom_cons]
    cases i with
    | zero =>
      rw [List.filter_cons_of_neg (by simp)]
      have hall : (List.enumFrom (k + 1) xs).filter
          (fun p => ¬ p.1 = k + 0) = List.enumFrom (k + 1) xs := by
        apply List.filter_eq_self.mpr
        intro p hp
        have := List.le_fst_of_mem_enumFrom hp
        simp only [decide_eq_true_eq]
        omega
      rw [hall, List.enumFrom_map_snd]
      rfl
    | succ n =>
      rw [List.filter_cons_of_pos (by simp)]
      rw [List.map_cons]
      have harith : k + (n + 1) = (k + 1) + n := by omega
      rw [harith, ih (k + 1) n]
      rfl

theorem removeStep_eq_removeEntryAt (full : List (String × Nat))
    (hnd : (keysOf full).Nodup) (e : String × Nat) (he : e ∈ full)
    (hooks : List (String × List JVal)) :
    removeStep full hooks e = removeEntryAt hooks e.1 e.2 := by
  unfold removeStep removeEntryAt
  cases hl : lookupKey hooks e.1 with
  | none => rfl
  | some l =>
    simp only
    have hidxs : (full.filter (fun p => p.1 = e.1)).map Prod.snd =
        [e.2] := by
      rw [filter_keys_eq_singleton hnd he]
      rfl
    rw [hidxs]
    have hcongr : l.enum.filter (fun p => ¬ p.1 ∈ ([e.2] : List Nat)) =
        l.enum.filter (fun p => ¬ p.1 = 0 + e.2) := by
      apply List.filter_congr
      intro p _
      rw [decide_eq_decide]
      simp only [List.mem_singleton]
      omega
    have hkept : (l.enum.filter
        (fun p => ¬ p.1 ∈ ([e.2] : List Nat))).map Prod.snd =
        removeIdx l e.2 := by
      rw [hcongr]
      exact enumFrom_filter_ne_removeIdx l 0 e.2
    rw [hkept]

theorem not_mem_keysOf_of_lookupKey_none {α : Type}
    {l : List (String × α)} {k : String} (h : lookupKey l k = none) :
    k ∉ keysOf l := by
  intro hm
  have := lookupKey_isSome_of_mem_keysOf hm
  rw [h] at this
  simp at this

theorem keysOf_cons {α : Type} (hd : String × α) (rest : List (String × α)) :
    keysOf (hd :: rest) = hd.1 :: keysOf rest := rfl

theorem lookupKey_append_of_not_mem {α : Type} (l : List (String × α))
    (k : String) (v : α) (h : k ∉ keysOf l) :
    lookupKey (l ++ [(k, v)]) k = some v := by
  induction l with
  | nil => simp [lookupKey]
  | cons hd t ih =>
    simp only [keysOf, List.map_cons, List.mem_cons] at h
    push_neg at h
    simp [lookupKey, Ne.symm h.1, ih (by simpa [keysOf] using h.2)]

theorem removeIdx_append_length {α : Type} (l : List α) (a : α) :
    removeIdx (l ++ [a]) l.length = l := by
  induction l with
  | nil => rfl
  | cons x xs ih => simp [removeIdx, ih]

theorem removeEntryAt_of_lookup_some {h : List (String × List JVal)}
    {t : String} {l : List JVal} (hl : lookupKey h t = some l) (i : Nat) :
    removeEntryAt h t i =
      if (removeIdx l i).isEmpty then eraseKey h t
      else setKey h t (removeIdx l i) := by
  simp only [removeEntryAt, hl]

theorem removeEntryAt_of_lookup_none {h : List (String × List JVal)}
    {t : String} (hl : lookupKey h t = none) (i : Nat) :
    removeEntryAt h t i = h := by
  simp only [removeEntryAt, hl]

theorem lookupKey_removeEntryAt_ne (h : List (String × List JVal))
    (a b : String) (i : Nat) (hab : a ≠ b) :
    lookupKey (removeEntryAt h a i) b = lookupKey h b := by
  cases hl : lookupKey h a with
  | none => rw [removeEntryAt_of_lookup_none hl]
  | some l =>
    rw [removeEntryAt_of_lookup_some hl]
    by_cases he : (removeIdx l i).isEmpty
    · rw [if_pos he]
      exact lookupKey_eraseKey_ne _ _ _ hab
    · rw [if_neg he]
      exact lookupKey_setKey_ne _ _ _ _ hab

theorem removeEntryAt_comm (h : List (String × List JVal)) (a b : String)
    (i j : Nat) (hab : a ≠ b) :
    removeEntryAt (removeEntryAt h a i) b j =
      removeEntryAt (removeEntryAt h b j) a i := by
  have hba := Ne.symm hab
  cases hla : lookupKey h a with
  | none =>
    have e1 : removeEntryAt h a i = h := removeEntryAt_of_lookup_none hla i
    have e2 : lookupKey (removeEntryAt h b j) a = none := by
      rw [lookupKey_removeEntryAt_ne h b a j hba]; exact hla
    have e3 : removeEntryAt (removeEntryAt h b j) a i =
        removeEntryAt h b j := removeEntryAt_of_lookup_none e2 i
    rw [e1, e3]
  | some la =>
    cases hlb : lookupKey h b with
    | none =>
      have e1 : removeEntryAt h b j = h :=
        removeEntryAt_of_lookup_none hlb j
      have e2 : lookupKey (removeEntryAt h a i) b = none := by
        rw [lookupKey_removeEntryAt_ne h a b i hab]; exact hlb
      have e3 : removeEntryAt (removeEntryAt h a i) b j =
          removeEntryAt h a i := removeEntryAt_of_lookup_none e2 j
      rw [e1, e3]
    | some lb =>
      have hmema : a ∈ keysOf h := mem_keysOf_of_lookupKey hla
      have hAB : lookupKey (removeEntryAt h a i) b = some lb := by
        rw [lookupKey_removeEntryAt_ne h a b i hab]; exact hlb
      have hBA : lookupKey (removeEntryAt h b j) a = some la := by
        rw [lookupKey_removeEntryAt_ne h b a j hba]; exact hla
      rw [removeEntryAt_of_lookup_some hAB j,
        removeEntryAt_of_lookup_some hBA i,
        removeEntryAt_of_lookup_some hla i,
        removeEntryAt_of_lookup_some hlb j]
      by_cases hea : (removeIdx la i).isEmpty
      · by_cases heb : (removeIdx lb j).isEmpty
        · rw [if_pos hea, if_pos heb, if_pos hea, if_pos heb]
          exact eraseKey_eraseKey_comm h a b hab
        · rw [if_pos hea, if_neg heb, if_pos hea, if_neg heb]
          exact setKey_eraseKey_comm h a b (removeIdx lb j) hab
      · by_cases heb : (removeIdx lb j).isEmpty
        · rw [if_neg hea, if_pos heb, if_neg hea, if_pos heb]
          exact (setKey_eraseKey_comm h b a (removeIdx la i) hba).symm
        · rw [if_neg hea, if_neg heb, if_neg hea, if_neg heb]
          exact setKey_setKey_comm (removeIdx la i) (removeIdx lb j) hab
            hmema

theorem foldl_removeEntryAt_out (l : List (String × Nat))
    (x : String × Nat) (hx : ∀ y ∈ l, y.1 ≠ x.1) :
    ∀ hooks, l.foldl (fun hk e => removeEntryAt hk e.1 e.2)
        (removeEntryAt hooks x.1 x.2) =
      removeEntryAt
        (l.foldl (fun hk e => removeEntryAt hk e.1 e.2) hooks) x.1 x.2 := by
  induction l with
  | nil => intro hooks; rfl
  | cons y ys ih =>
    intro hooks
    have hy : y.1 ≠ x.1 := hx y (List.mem_cons_self y ys)
    simp only [List.foldl_cons]
    rw [removeEntryAt_comm hooks x.1 y.1 x.2 y.2 (fun hh => hy hh.symm)]
    exact ih (fun z hz => hx z (List.mem_cons_of_mem y hz)) _

theorem addEntriesAux_fst_indep (inputs : List (String × String)) :
    ∀ (cfg : List (String × JVal)) hooks entries entries2,
      (addEntriesAux inputs cfg (hooks, entries)).1 =
        (addEntriesAux inputs cfg (hooks, entries2)).1 := by
  intro cfg
  induction cfg with
  | nil => intros; rfl
  | cons hd rest ih =>
    intro hooks entries entries2
    obtain ⟨t, m⟩ := hd
    exact ih _ _ _

theorem addEntriesAux_snd_append (inputs : List (String × String)) :
    ∀ (cfg : List (String × JVal)), (keysOf cfg).Nodup →
    ∀ hooks entries, (∀ t ∈ keysOf cfg, t ∉ keysOf entries) →
      (addEntriesAux inputs cfg (hooks, entries)).2 =
        entries ++ (addEntriesAux inputs cfg (hooks, [])).2 := by
  intro cfg
  induction cfg with
  | nil => intro _ hooks entries _; simp [addEntriesAux]
  | cons hd rest ih =>
    intro hnd hooks entries hfresh
    obtain ⟨t0, m0⟩ := hd
    have hnd' : (keysOf rest).Nodup :=
      (List.nodup_cons.mp (by simpa [keysOf] using hnd)).2
    have ht0rest : t0 ∉ keysOf rest :=
      (List.nodup_cons.mp (by simpa [keysOf] using hnd)).1
    have ht0 : t0 ∉ keysOf entries := hfresh t0 (by
      rw [keysOf_cons]; exact List.mem_cons_self _ _)
    show (addEntriesAux inputs rest
        (setKey hooks t0 (((lookupKey hooks t0).getD []) ++
          [process_data inputs m0]),
         setKey entries t0 ((lookupKey hooks t0).getD []).length)).2 =
      entries ++ (addEntriesAux inputs rest
        (setKey hooks t0 (((lookupKey hooks t0).getD []) ++
          [process_data inputs m0]),
         setKey [] t0 ((lookupKey hooks t0).getD []).length)).2
    rw [setKey_of_not_mem _ _ _ ht0]
    rw [show setKey ([] : List (String × Nat)) t0
        ((lookupKey hooks t0).getD []).length =
        [(t0, ((lookupKey hooks t0).getD []).length)] from rfl]
    rw [ih hnd' _ (entries ++ [(t0, ((lookupKey hooks t0).getD []).length)])
      (by
        intro t ht
        have h1 : t ∉ keysOf entries := hfresh t (by
          rw [keysOf_cons]; exact List.mem_cons_of_mem _ ht)
        have h2 : t ≠ t0 := fun hh => ht0rest (hh ▸ ht)
        simp only [keysOf, List.map_append, List.map_cons, List.map_nil,
          List.mem_append, List.mem_cons, List.not_mem_nil, or_false]
        push_neg
        exact ⟨by simpa [keysOf] using h1, h2⟩)]
    rw [ih hnd' _ [(t0, ((lookupKey hooks t0).getD []).length)]
      (by
        intro t ht
        have h2 : t ≠ t0 := fun hh => ht0rest (hh ▸ ht)
        simp [keysOf, h2])]
    simp

theorem addEntriesAux_snd_keys (inputs : List (String × String)) :
    ∀ (cfg : List (String × JVal)), (keysOf cfg).Nodup →
    ∀ hooks, keysOf ((addEntriesAux inputs cfg (hooks, [])).2) =
      keysOf cfg := by
  intro cfg
  induction cfg with
  | nil => intros; rfl
  | cons hd rest ih =>
    intro hnd hooks
    obtain ⟨t0, m0⟩ := hd
    have hnd' : (keysOf rest).Nodup :=
      (List.nodup_cons.mp (by simpa [keysOf] using hnd)).2
    have ht0rest : t0 ∉ keysOf rest :=
      (List.nodup_cons.mp (by simpa [keysOf] using hnd)).1
    show keysOf ((addEntriesAux inputs rest
        (setKey hooks t0 (((lookupKey hooks t0).getD []) ++
          [process_data inputs m0]),
         setKey [] t0 ((lookupKey hooks t0).getD []).length)).2) = _
    rw [show setKey ([] : List (String × Nat)) t0
        ((lookupKey hooks t0).getD []).length =
        [(t0, ((lookupKey hooks t0).getD []).length)] from rfl]
    rw [addEntriesAux_snd_append inputs rest hnd' _ _
      (by
        intro t ht
        have h2 : t ≠ t0 := fun hh => ht0rest (hh ▸ ht)
        simp [keysOf, h2])]
    have hrest := ih hnd' (setKey hooks t0
      (((lookupKey hooks t0).getD []) ++ [process_data inputs m0]))
    simp only [keysOf, List.map_append, List.map_cons, List.map_nil] at hrest ⊢
    rw [hrest]
    rfl

theorem removeEntryAt_restore (h0 : List (String × List JVal))
    (t0 : String) (e0 : JVal)
    (hcond : ∀ l, lookupKey h0 t0 = some l → l ≠ []) :
    removeEntryAt (setKey h0 t0 (((lookupKey h0 t0).getD []) ++ [e0])) t0
      ((lookupKey h0 t0).getD []).length = h0 := by
  cases hl : lookupKey h0 t0 with
  | none =>
    have hnm : t0 ∉ keysOf h0 := not_mem_keysOf_of_lookupKey_none hl
    simp only [Option.getD_none, List.nil_append, List.length_nil]
    rw [setKey_of_not_mem _ _ _ hnm]
    rw [removeEntryAt_of_lookup_some
      (lookupKey_append_of_not_mem h0 t0 [e0] hnm) 0]
    rw [if_pos (by rfl)]
    exact eraseKey_append_of_not_mem _ _ _ hnm
  | some l0 =>
    have hne := hcond l0 hl
    simp only [Option.getD_some]
    rw [removeEntryAt_of_lookup_some (lookupKey_setKey_self h0 t0 _)
      l0.length]
    rw [removeIdx_append_length]
    rw [if_neg (by simpa using hne)]
    rw [setKey_setKey_same]
    exact setKey_of_lookup_eq hl

theorem foldl_removeEntryAt_addEntries (inputs : List (String × String)) :
    ∀ (cfgHooks : List (String × JVal)),
      (keysOf cfgHooks).Nodup →
    ∀ (h0 : List (String × List JVal)),
      (∀ t l, lookupKey h0 t = some l → t ∈ keysOf cfgHooks → l ≠ []) →
      ((addEntries inputs cfgHooks h0).2).foldl
          (fun hk e => removeEntryAt hk e.1 e.2)
          (addEntries inputs cfgHooks h0).1 = h0 := by
  intro cfgHooks
  induction cfgHooks with
  | nil => intro _ h0 _; rfl
  | cons hd rest ih =>
    intro hnd h0 hne
    obtain ⟨t0, m0⟩ := hd
    have hnd' : (keysOf rest).Nodup :=
      (List.nodup_cons.mp (by simpa [keysOf] using hnd)).2
    have ht0rest : t0 ∉ keysOf rest :=
      (List.nodup_cons.mp (by simpa [keysOf] using hnd)).1
    have hrec : (addEntries inputs ((t0, m0) :: rest) h0).2 =
        (t0, ((lookupKey h0 t0).getD []).length) ::
          (addEntriesAux inputs rest
            (setKey h0 t0 (((lookupKey h0 t0).getD []) ++
              [process_data inputs m0]), [])).2 := by
      show (addEntriesAux inputs rest
          (setKey h0 t0 (((lookupKey h0 t0).getD []) ++
            [process_data inputs m0]),
           setKey [] t0 ((lookupKey h0 t0).getD []).length)).2 = _
      rw [show setKey ([] : List (String × Nat)) t0
          ((lookupKey h0 t0).getD []).length =
          [(t0, ((lookupKey h0 t0).getD []).length)] from rfl]
      rw [addEntriesAux_snd_append inputs rest hnd' _ _
        (by
          intro t ht
          have h2 : t ≠ t0 := fun hh => ht0rest (hh ▸ ht)
          simp [keysOf, h2])]
      simp
    have hfst : (addEntries inputs ((t0, m0) :: rest) h0).1 =
        (addEntriesAux inputs rest
          (setKey h0 t0 (((lookupKey h0 t0).getD []) ++
            [process_data inputs m0]), [])).1 := by
      show (addEntriesAux inputs rest (_, _)).1 = _
      exact addEntriesAux_fst_indep inputs rest _ _ _
    rw [hrec, hfst, List.foldl_cons]
    have hrecular : ∀ y ∈ (addEntriesAux inputs rest
        (setKey h0 t0 (((lookupKey h0 t0).getD []) ++
          [process_data inputs m0]), [])).2, y.1 ≠ t0 := by
      intro y hy
      have hk : y.1 ∈ keysOf rest := by
        rw [← addEntriesAux_snd_keys inputs rest hnd'
          (setKey h0 t0 (((lookupKey h0 t0).getD []) ++
            [process_data inputs m0]))]
        simpa [keysOf] using List.mem_map_of_mem Prod.fst hy
      exact fun hh => ht0rest (hh ▸ hk)
    rw [foldl_removeEntryAt_out _ _ hrecular]
    have hih := ih hnd'
      (setKey h0 t0 (((lookupKey h0 t0).getD []) ++
        [process_data inputs m0]))
      (by
        intro t l hl ht
        have h2 : t ≠ t0 := fun hh => ht0rest (hh ▸ ht)
        rw [lookupKey_setKey_ne _ _ _ _ (Ne.symm h2)] at hl
        exact hne t l hl (by
          rw [keysOf_cons]; exact List.mem_cons_of_mem _ ht))
    rw [show (addEntriesAux inputs rest
        (setKey h0 t0 (((lookupKey h0 t0).getD []) ++
          [process_data inputs m0]), [])).2.foldl
        (fun hk e => removeEntryAt hk e.1 e.2)
        (addEntriesAux inputs rest
          (setKey h0 t0 (((lookupKey h0 t0).getD []) ++
            [process_data inputs m0]), [])).1 =
        setKey h0 t0 (((lookupKey h0 t0).getD []) ++
          [process_data inputs m0]) from hih]
    exact removeEntryAt_restore h0 t0 (process_data inputs m0)
      (fun l hl => hne t0 l hl (by simp [keysOf]))

theorem removeRecordedEntries_addEntries (inputs : List (String × String))
    (cfgHooks : List (String × JVal)) (h0 : List (String × List JVal))
    (hnd : (keysOf cfgHooks).Nodup)
    (hne : ∀ t l, lookupKey h0 t = some l → t ∈ keysOf cfgHooks → l ≠ []) :
    removeRecordedEntries (addEntries inputs cfgHooks h0).1
      (addEntries inputs cfgHooks h0).2 = h0 := by
  obtain ⟨frame, mem⟩ := addEntriesAux_lookup inputs cfgHooks hnd h0 []
  have hkeys : keysOf ((addEntries inputs cfgHooks h0).2) =
      keysOf cfgHooks := addEntriesAux_snd_keys inputs cfgHooks hnd h0
  have hndrec : (keysOf ((addEntries inputs cfgHooks h0).2)).Nodup := by
    rw [hkeys]; exact hnd
  have hfilter : ((addEntries inputs cfgHooks h0).2).filter
      (fun e => (lookupKey (addEntries inputs cfgHooks h0).1 e.1).isSome) =
      (addEntries inputs cfgHooks h0).2 := by
    apply List.filter_eq_self.mpr
    intro e hein
    have hk : e.1 ∈ keysOf cfgHooks := by
      rw [← hkeys]
      simpa [keysOf] using List.mem_map_of_mem Prod.fst hein
    obtain ⟨tmpl, htm⟩ := mem_of_mem_keysOf hk
    have hsome : lookupKey (addEntries inputs cfgHooks h0).1 e.1 =
        some (((lookupKey h0 e.1).getD []) ++ [process_data inputs tmpl]) :=
      (mem e.1 tmpl htm).1
    rw [hsome]
    rfl
  unfold removeRecordedEntries
  rw [hfilter]
  have hperm : (sortDescByIdx ((addEntries inputs cfgHooks h0).2)).Perm
      ((addEntries inputs cfgHooks h0).2) :=
    sortDescByIdx_perm _
  have hndsorted :
      (keysOf (sortDescByIdx ((addEntries inputs cfgHooks h0).2))).Nodup :=
    (hperm.map Prod.fst).nodup_iff.mpr hndrec
  have hext : (sortDescByIdx ((addEntries inputs cfgHooks h0).2)).foldl
      (removeStep (sortDescByIdx ((addEntries inputs cfgHooks h0).2)))
      (addEntries inputs cfgHooks h0).1 =
      (sortDescByIdx ((addEntries inputs cfgHooks h0).2)).foldl
        (fun hk e => removeEntryAt hk e.1 e.2)
        (addEntries inputs cfgHooks h0).1 := by
    apply List.foldl_ext
    intro acc e he
    exact removeStep_eq_removeEntryAt _ hndsorted e he acc
  rw [hext]
  have hcomm : ∀ x ∈ sortDescByIdx ((addEntries inputs cfgHooks h0).2),
      ∀ y ∈ sortDescByIdx ((addEntries inputs cfgHooks h0).2), ∀ z,
      removeEntryAt (removeEntryAt z x.1 x.2) y.1 y.2 =
        removeEntryAt (removeEntryAt z y.1 y.2) x.1 x.2 := by
    intro x hx y hy z
    by_cases hxy : x.1 = y.1
    · have hxe : x = y := eq_of_mem_of_keys_nodup hndsorted hx hy hxy
      subst hxe; rfl
    · exact removeEntryAt_comm z x.1 y.1 x.2 y.2 hxy
  rw [hperm.foldl_eq' hcomm (addEntries inputs cfgHooks h0).1]
  exact foldl_removeEntryAt_addEntries inputs cfgHooks hnd h0 hne

/-! ## Claim theorems -/

/-- C2: after every install (over a hook-configuration mapping, whose
event-type keys are distinct), every index in the stored record's
`hook_entries` is the pre-append length of that event type's list in the
Settings Store, and the final list holds this hook set's rendered entry
at exactly that index, as its new last element. -/
theorem install_records_preappend_indices (settings0 : Option SettingsStore)
    (metadata0 : Option MetadataStore) (cfg : HookSetConfig)
    (inputs : List (String × String)) (hookSetName : String)
    (files : List (List String)) (hnd : (keysOf cfg.hooks).Nodup) :
    InstallRecordsOwnIndices settings0 metadata0 cfg inputs hookSetName
      files := by
  obtain ⟨frame, mem⟩ := addEntriesAux_lookup inputs cfg.hooks hnd
    ((settings0.getD ⟨none, []⟩).hooks.getD []) []
  refine ⟨_, lookupKey_setKey_self _ _ _, rfl, ?_⟩
  intro t i hti
  have hti' : lookupKey (addEntriesAux inputs cfg.hooks
      (((settings0.getD ⟨none, []⟩).hooks.getD []), [])).2 t = some i := hti
  by_cases hk : t ∈ keysOf cfg.hooks
  · obtain ⟨tmpl, hmem⟩ := mem_of_mem_keysOf hk
    obtain ⟨hm1, hm2⟩ := mem t tmpl hmem
    rw [hm2] at hti'
    have hi : i = ((lookupKey ((settings0.getD ⟨none, []⟩).hooks.getD [])
        t).getD []).length := by simpa using hti'.symm
    subst hi
    refine ⟨tmpl, hmem, rfl,
      ((lookupKey ((settings0.getD ⟨none, []⟩).hooks.getD []) t).getD [] ++
        [process_data inputs tmpl]), hm1,
      List.getElem?_concat_length _ _, by simp⟩
  · obtain ⟨_, hf2⟩ := frame t hk
    rw [hf2] at hti'
    simp [lookupKey] at hti'

/-- Witness for C2: installing a one-hook hook set into an empty target. -/
theorem install_records_preappend_indices_witness :
    (keysOf [("PreToolUse", JVal.obj [("type", JVal.str "command")])]).Nodup ∧
    InstallRecordsOwnIndices none none
      ⟨some (JVal.str "obs"), some (JVal.str "1.0"), some (JVal.str "d"),
        [("PreToolUse", JVal.obj [("type", JVal.str "command")])]⟩
      [("project_name", "demo")] "observability_log" [["hooks", "send.py"]] :=
  ⟨by decide,
   install_records_preappend_indices _ _ _ _ _ _ (by decide)⟩

/-- C5: the install writes no top-level settings member other than
`hooks`, appends to the hooks lists exactly the rendered entries of this
hook set (rendering preserves each entry object's keys, so no
installer-private tag field appears), and writes the bookkeeping —
installed files, hook-entry indices, inputs, config snapshot — only into
the Metadata Store record. -/
theorem install_keeps_settings_clean (settings0 : Option SettingsStore)
    (metadata0 : Option MetadataStore) (cfg : HookSetConfig)
    (inputs : List (String × String)) (hookSetName : String)
    (files : List (List String)) (hnd : (keysOf cfg.hooks).Nodup) :
    SettingsStayClean settings0 metadata0 cfg inputs hookSetName files := by
  obtain ⟨frame, mem⟩ := addEntriesAux_lookup inputs cfg.hooks hnd
    ((settings0.getD ⟨none, []⟩).hooks.getD []) []
  refine ⟨rfl, ⟨(addEntries inputs cfg.hooks
      ((settings0.getD ⟨none, []⟩).hooks.getD [])).1, rfl, ?_, ?_⟩, ?_,
    lookupKey_setKey_self _ _ _⟩
  · intro t ht
    exact (frame t ht).1
  · intro t tmpl hmem
    exact (mem t tmpl hmem).1
  · intro kvs
    exact ⟨rfl, process_dataObj_keys inputs kvs⟩

/-- Witness for C5: installing one hook entry next to a pre-existing
settings file that already carries a host-tool member. -/
theorem install_keeps_settings_clean_witness :
    (keysOf [("PreToolUse", JVal.obj [("type", JVal.str "command")])]).Nodup ∧
    SettingsStayClean
      (some ⟨some [("Stop", [JVal.null])], [("model", JVal.str "opus")]⟩)
      none
      ⟨some (JVal.str "obs"), some (JVal.str "1.0"), some (JVal.str "d"),
        [("PreToolUse", JVal.obj [("type", JVal.str "command")])]⟩
      [("project_name", "demo")] "observability_log" [["hooks", "send.py"]] :=
  ⟨by decide,
   install_keeps_settings_clean _ _ _ _ _ _ (by decide)⟩

/-- C3: for every declared input specification (with distinct input names,
as a parsed mapping guarantees), FULL prompts for every declared input
offering its configured default, DEFAULT prompts exactly for the required
inputs and silently substitutes the declared default for every optional
input that has one, and EXIT prompts for nothing and substitutes every
declared default. -/
theorem collect_parameters_policy (hookName pathName : String)
    (cfgs : List (String × InputSpec))
    (ask : String → Option String → String)
    (hnd : (keysOf cfgs).Nodup) :
    ParameterPolicy hookName pathName cfgs ask := by
  refine ⟨?_, ⟨?_, ?_⟩, ⟨?_, ?_, ?_⟩, ?_, ?_⟩
  · intro spec d hd
    simp [offeredDefault, hd]
  · rw [collect_parameters, collectLoop_snd]
    simp [shouldAsk]
  · intro n spec hmem
    rw [collect_parameters, collectLoop_lookup .full ask hnd hmem]
    simp [shouldAsk]
  · rw [collect_parameters, collectLoop_snd]
    simp [shouldAsk]
  · intro n spec hmem hreq
    rw [collect_parameters, collectLoop_lookup .default ask hnd hmem]
    simp [shouldAsk, hreq]
  · intro n spec d hmem hreq hd
    rw [collect_parameters, collectLoop_lookup .default ask hnd hmem]
    simp [shouldAsk, hreq, hd]
  · rw [collect_parameters, collectLoop_snd]
    simp [shouldAsk]
  · intro n spec d hmem hd
    rw [collect_parameters, collectLoop_lookup .exit ask hnd hmem]
    simp [shouldAsk, hd]

/-- Witness for C3 at the spec's example: one required input `token` with
no default and one optional input `url` with default `http://localhost`. -/
theorem collect_parameters_policy_witness :
    (keysOf [("token", InputSpec.mk none none true),
             ("url", InputSpec.mk none (some "http://localhost") false)]).Nodup ∧
    ParameterPolicy "observability_log" "standard"
      [("token", InputSpec.mk none none true),
       ("url", InputSpec.mk none (some "http://localhost") false)]
      (fun n _ => n ++ "-answer") :=
  ⟨by decide, collect_parameters_policy _ _ _ _ (by decide)⟩

/-- C9 counterexample: with the `observability_viz` hook and the
`docker_deploy` path, a declared optional input `influxdb_url` with
default `http://example.org` under path type DEFAULT ends up at its
declared default in the returned parameter map — the declared default
overrides the pre-set Docker value `http://localhost:8086`, not the other
way round as the claim states. -/
theorem docker_preset_overridden_counterexample :
    lookupKey (collect_parameters "observability_viz" "docker_deploy"
        .default
        [("influxdb_url", InputSpec.mk none (some "http://example.org") false)]
        (fun _ _ => "")).1 "influxdb_url" = some "http://example.org" ∧
    some "http://example.org" ≠ some "http://localhost:8086" :=
  ⟨rfl, by decide⟩

/-- C9 amended: for `observability_viz`'s `docker_deploy` path the four
connection parameters are pre-set before any prompting and persist for
names not declared among the inputs, but a declared default of an input
the path does not prompt for overrides the same-named pre-set value in
the returned map. -/
theorem collect_parameters_docker_presets (pathType : InstallationPath)
    (cfgs : List (String × InputSpec))
    (ask : String → Option String → String)
    (hnd : (keysOf cfgs).Nodup) :
    DockerPresetBehavior pathType cfgs ask := by
  constructor
  · intro n v hm hnot
    rw [collect_parameters]
    rw [if_pos (⟨rfl, rfl⟩ :
      "docker_deploy" = "docker_deploy" ∧
      "observability_viz" = "observability_viz")]
    rw [collectLoop_fst_frame _ _ _ _ hnot]
    simp only [dockerPresets, List.mem_cons, List.mem_singleton,
      Prod.mk.injEq, List.not_mem_nil, or_false] at hm
    rcases hm with ⟨rfl, rfl⟩ | ⟨rfl, rfl⟩ | ⟨rfl, rfl⟩ | ⟨rfl, rfl⟩ <;> rfl
  · intro n spec d hmem hreq hd hpt
    rw [collect_parameters, collectLoop_lookup pathType ask hnd hmem]
    have : shouldAsk pathType spec.required = false := by
      cases pathType with
      | full => exact absurd rfl hpt
      | default => simp [shouldAsk, hreq]
      | exit => simp [shouldAsk]
    simp [this, hd]

/-- Witness for the amended C9: under the EXIT path with a single declared
optional input `influxdb_url` defaulting to `http://example.org`, the
undeclared presets survive and the declared default wins. -/
theorem collect_parameters_docker_presets_witness :
    (keysOf [("influxdb_url",
        InputSpec.mk none (some "http://example.org") false)]).Nodup ∧
    DockerPresetBehavior .exit
      [("influxdb_url", InputSpec.mk none (some "http://example.org") false)]
      (fun _ _ => "") :=
  ⟨by decide, collect_parameters_docker_presets _ _ _ (by decide)⟩

/-- C6: `process_string` replaces the literal `\x7bname\x7d` placeholders
of all supplied variables first and only then renders the result through
the expression engine with the same variables; in particular it maps
`Hello \x7bproject_name\x7d!` to `Hello demo!` and
`\x7b\x7b project_name \x7d\x7d` to `demo` for
`project_name = demo`. -/
theorem process_string_literal_pass_first :
    (∀ content vars, process_string content vars =
      jinjaRender (vars.foldl
        (fun c kv => pyReplace c ("\x7b" ++ kv.1 ++ "\x7d") kv.2) content)
        vars) ∧
    process_string "Hello \x7bproject_name\x7d!" [("project_name", "demo")] =
      "Hello demo!" ∧
    process_string "\x7b\x7b project_name \x7d\x7d"
      [("project_name", "demo")] = "demo" :=
  ⟨fun _ _ => rfl, rfl, rfl⟩

theorem get_action_dictKeys (a : ActionSpec) :
    get_action a.type a.dictKeys =
      if a.type ∈ registeredActionTypes then .typeError "type"
      else .unknown := by
  by_cases hreg : a.type ∈ registeredActionTypes
  · rw [if_pos hreg]
    have hty : ((acceptedParams a.type).contains "type") = false := by
      simp only [registeredActionTypes, List.mem_cons,
        List.not_mem_nil, or_false] at hreg
      rcases hreg with h | h | h | h | h <;> rw [h] <;> rfl
    have hfind : (ActionSpec.dictKeys a).find?
        (fun k => ! (acceptedParams a.type).contains k) = some "type" := by
      rw [ActionSpec.dictKeys, List.find?_cons_of_pos]
      simp only [hty, Bool.not_false]
    simp only [get_action, if_pos hreg, hfind]
  · simp only [get_action, if_neg hreg]

theorem executePathActions_cons (env : ActionEnv)
    (inputs : List (String × String)) (a : ActionSpec)
    (rest : List ActionSpec) :
    executePathActions env inputs (a :: rest) =
      if a.type ∈ registeredActionTypes then ([], .raised "type")
      else ([.errorUnknownAction a.type], .failed) := by
  have h := get_action_dictKeys a
  by_cases hreg : a.type ∈ registeredActionTypes
  · rw [if_pos hreg] at h
    simp [executePathActions, h, hreg]
  · rw [if_neg hreg] at h
    simp [executePathActions, h, hreg]

/-- C4 counterexample: a path whose action list is a Docker-infrastructure
copy followed by an unregistered action type does not abort with the
Configuration error naming `bogus_action`: instantiating
`CopyDockerInfrastructureAction` from the whole `path_action.__dict__`
raises `TypeError` on the forwarded `type` keyword, so the flow fails
with the generic Installation-failed message, the unknown type is never
named — and no file is written either, since the copy action is never
constructed. -/
theorem unknown_action_typeerror_counterexample :
    runFlow alwaysEnv .default
      [ActionSpec.mk "copy_docker_infrastructure" "" "docker"
        "docker-infrastructure" [] ["source", "target"],
       ActionSpec.mk "bogus_action" "" "" "" [] []] [] =
      ([Event.errorInstallationFailed "type"], false) ∧
    Event.errorUnknownAction "bogus_action" ∉
      (runFlow alwaysEnv .default
        [ActionSpec.mk "copy_docker_infrastructure" "" "docker"
          "docker-infrastructure" [] ["source", "target"],
         ActionSpec.mk "bogus_action" "" "" "" [] []] []).1 ∧
    ∀ f, Event.fileWritten f ∉
      (runFlow alwaysEnv .default
        [ActionSpec.mk "copy_docker_infrastructure" "" "docker"
          "docker-infrastructure" [] ["source", "target"],
         ActionSpec.mk "bogus_action" "" "" "" [] []] []).1 := by
  have h : runFlow alwaysEnv .default
      [ActionSpec.mk "copy_docker_infrastructure" "" "docker"
        "docker-infrastructure" [] ["source", "target"],
       ActionSpec.mk "bogus_action" "" "" "" [] []] [] =
      ([Event.errorInstallationFailed "type"], false) := rfl
  refine ⟨h, ?_, ?_⟩
  · rw [h]
    simp
  · intro f
    rw [h]
    simp

/-- C4 amended: if the selected path's nonempty action list contains an
action type not registered in the Action Registry, the flow aborts
reporting failure, no action of the path executes, no file is written to
the target directory, and the Installer is never invoked; but the
Configuration error identifying the unresolvable type name is emitted
only when the unknown action comes first in the list — when a registered
action precedes it, the registry call forwards the stored `type`
attribute into a constructor that does not accept it, the resulting
`TypeError` is caught by the generic handler of `run`, and the flow
aborts with the Installation-failed message without naming the unknown
type. -/
theorem unknown_action_aborts_flow (env : ActionEnv)
    (inputs : List (String × String)) (pathType : InstallationPath)
    (a : ActionSpec) (rest : List ActionSpec)
    (_hunk : ∃ b ∈ a :: rest, b.type ∉ registeredActionTypes) :
    UnknownActionAbort env inputs pathType a rest := by
  have hrun : runFlow env pathType (a :: rest) inputs =
      if a.type ∈ registeredActionTypes
      then ([Event.errorInstallationFailed "type"], false)
      else ([Event.errorUnknownAction a.type], false) := by
    by_cases hreg : a.type ∈ registeredActionTypes
    · simp [runFlow, executePathActions_cons, hreg]
    · simp [runFlow, executePathActions_cons, hreg]
  refine ⟨?_, ?_, ?_, ?_, ?_⟩
  · intro f
    rw [hrun]
    by_cases hreg : a.type ∈ registeredActionTypes <;> simp [hreg]
  · rw [hrun]
    by_cases hreg : a.type ∈ registeredActionTypes <;> simp [hreg]
  · rw [hrun]
    by_cases hreg : a.type ∈ registeredActionTypes <;> simp [hreg]
  · intro hun
    rw [hrun, if_neg hun]
  · intro hreg
    rw [hrun, if_pos hreg]
    exact ⟨rfl, by simp⟩

theorem uninstallHookSet_ok (st : TargetState) (name : String)
    (m : MetadataStore) (record : HookRecord)
    (hm : st.metadataFile = some m)
    (hrec : lookupKey m.installed_hook_sets name = some record) :
    uninstallHookSet st name = .ok
      { settingsFile :=
          match (st.settingsFile.getD ⟨some [], []⟩).hooks with
          | none => none
          | some _ =>
            if (removeRecordedEntries
                ((st.settingsFile.getD ⟨some [], []⟩).hooks.getD [])
                record.hook_entries).isEmpty then none
            else some ⟨some (removeRecordedEntries
                ((st.settingsFile.getD ⟨some [], []⟩).hooks.getD [])
                record.hook_entries),
              (st.settingsFile.getD ⟨some [], []⟩).extra⟩
        metadataFile :=
          if (eraseKey m.installed_hook_sets name).isEmpty then none
          else some ⟨eraseKey m.installed_hook_sets name⟩
        tree := pruneHooksSubdir
          (record.installed_files.foldl deletePath st.tree) } := by
  simp only [uninstallHookSet, hm, hrec]

/-- C8: uninstalling when no Metadata Store file exists fails with the
no-metadata error, and uninstalling a name absent from an existing
Metadata Store fails with the not-installed error; both checks precede
every file operation in `uninstall_hook_set`, and the error result
carries no successor state — no file is deleted and neither store is
rewritten. -/
theorem uninstall_missing_fails_without_mutation (st : TargetState)
    (name : String) :
    (st.metadataFile = none →
      uninstallHookSet st name = .error .noMetadata) ∧
    (∀ m, st.metadataFile = some m →
      lookupKey m.installed_hook_sets name = none →
      uninstallHookSet st name = .error .notInstalled) := by
  constructor
  · intro h
    simp only [uninstallHookSet, h]
  · intro m hm hl
    simp only [uninstallHookSet, hm, hl]

/-- Witness for C8: a target with no metadata file, and one whose
metadata lists no hook sets. -/
theorem uninstall_missing_fails_without_mutation_witness :
    uninstallHookSet
      ⟨some ⟨some [], []⟩, none, .node []⟩ "observability_log" =
      .error .noMetadata ∧
    uninstallHookSet
      ⟨some ⟨some [], []⟩, some ⟨[]⟩, .node []⟩ "observability_log" =
      .error .notInstalled :=
  ⟨(uninstall_missing_fails_without_mutation _ _).1 rfl,
   (uninstall_missing_fails_without_mutation _ _).2 ⟨[]⟩ rfl rfl⟩

/-- C7 counterexample: deleting the single recorded file
`hooks/a/b/x.py` leaves the chain `hooks/a`, `hooks/a/b` empty, but the
sweep removes only the innermost directory `b`: the directory `a`, though
left empty by the uninstall, survives in the resulting tree.  The
bottom-up sweep the spec describes would remove the whole chain. -/
theorem uninstall_empty_dir_chain_counterexample :
    uninstallHookSet
      ⟨some ⟨some [("PreToolUse", [JVal.null])], []⟩,
       some ⟨[("obs", HookRecord.mk [["hooks", "a", "b", "x.py"]]
         [("PreToolUse", 0)] [] [])]⟩,
       .node [("hooks",
         .node [("a", .node [("b", .node [("x.py", .file)])])])]⟩
      "obs" =
      .ok ⟨none, none, .node [("hooks", .node [("a", .node [])])]⟩ ∧
    pruneEmptyDirsBottomUp (.node [("a", .node [("b", .node [])])]) =
      .node [] ∧
    FsTree.node [("a", FsTree.node [])] ≠ FsTree.node [] := by
  refine ⟨by rfl, by rfl, by simp⟩

/-- C7 amended: the empty-directory sweep is a single top-down pass that
removes exactly the children that are already empty directories after
file deletion, and recurses into the surviving ones; a directory emptied
only by the removal of its own empty subdirectories during the pass is
kept. -/
theorem pruneEmptyDirsList_removes_originally_empty
    (cs : List (String × FsTree)) :
    pruneEmptyDirsList cs =
      (cs.filter (fun c => ! c.2.isEmptyDir)).map
        (fun c => (c.1, pruneEmptyDirs c.2)) := by
  induction cs with
  | nil => simp [pruneEmptyDirsList]
  | cons hd rest ih =>
    obtain ⟨n, t⟩ := hd
    by_cases he : t.isEmptyDir
    · simp [pruneEmptyDirsList, he, ih]
    · simp [pruneEmptyDirsList, he, ih]

/-- C10: when an uninstall succeeds, the surviving settings file always
has a nonempty hooks section; and whenever the removal phase leaves no
hook entries at all, the settings file is deleted outright — dropping
every non-hooks top-level member (for example pre-existing host-tool
settings) along with it. -/
theorem uninstall_empty_hooks_deletes_settings (st : TargetState)
    (name : String) (st' : TargetState) :
    (uninstallHookSet st name = .ok st' →
      ∀ S', st'.settingsFile = some S' →
        ∃ h, S'.hooks = some h ∧ h ≠ []) ∧
    (∀ S m record, st.settingsFile = some S → st.metadataFile = some m →
      lookupKey m.installed_hook_sets name = some record →
      removeRecordedEntries (S.hooks.getD []) record.hook_entries = [] →
      uninstallHookSet st name = .ok st' → st'.settingsFile = none) := by
  constructor
  · intro hok S' hS'
    cases hmf : st.metadataFile with
    | none =>
      simp only [uninstallHookSet, hmf] at hok
      exact absurd hok (by simp)
    | some m =>
      cases hrec : lookupKey m.installed_hook_sets name with
      | none =>
        simp only [uninstallHookSet, hmf, hrec] at hok
        exact absurd hok (by simp)
      | some record =>
        rw [uninstallHookSet_ok st name m record hmf hrec] at hok
        simp only [Except.ok.injEq] at hok
        subst hok
        simp only at hS'
        revert hS'
        cases hh : (st.settingsFile.getD ⟨some [], []⟩).hooks with
        | none => intro hS'; simp at hS'
        | some h0 =>
          simp only [Option.getD_some]
          by_cases he : (removeRecordedEntries h0 record.hook_entries).isEmpty
          · rw [if_pos he]
            intro hS'
            simp at hS'
          · rw [if_neg he]
            intro hS'
            simp only [Option.some.injEq] at hS'
            subst hS'
            exact ⟨_, rfl, by simpa using he⟩
  · intro S m record hS hm hrec hrem hok
    rw [uninstallHookSet_ok st name m record hm hrec] at hok
    simp only [Except.ok.injEq] at hok
    subst hok
    simp only [hS, Option.getD_some]
    cases hh : S.hooks with
    | none => simp
    | some h0 =>
      simp only
      rw [if_pos]
      rw [hh, Option.getD_some] at hrem
      simp [hrem]

/-- Witness for C10: a pre-existing settings file carrying a host-tool
member `model` alongside one hook entry; uninstalling the only hook set
deletes the file, `model` included. -/
theorem uninstall_empty_hooks_deletes_settings_witness :
    removeRecordedEntries [("PreToolUse", [JVal.null])]
      [("PreToolUse", 0)] = [] ∧
    uninstallHookSet
      ⟨some ⟨some [("PreToolUse", [JVal.null])],
         [("model", JVal.str "opus")]⟩,
       some ⟨[("obs", HookRecord.mk [] [("PreToolUse", 0)] [] [])]⟩,
       FsTree.node []⟩ "obs" = .ok ⟨none, none, FsTree.node []⟩ ∧
    (TargetState.mk none none (FsTree.node [])).settingsFile = none :=
  ⟨rfl, rfl,
   (uninstall_empty_hooks_deletes_settings
     ⟨some ⟨some [("PreToolUse", [JVal.null])], [("model", JVal.str "opus")]⟩,
      some ⟨[("obs", HookRecord.mk [] [("PreToolUse", 0)] [] [])]⟩,
      FsTree.node []⟩ "obs" ⟨none, none, FsTree.node []⟩).2
     ⟨some [("PreToolUse", [JVal.null])], [("model", JVal.str "opus")]⟩
     ⟨[("obs", HookRecord.mk [] [("PreToolUse", 0)] [] [])]⟩
     (HookRecord.mk [] [("PreToolUse", 0)] [] [])
     rfl rfl rfl rfl (by rfl)⟩

/-- C1 counterexample: with a pre-existing `settings.json` holding a
host-tool member `model` and no `hooks` key, installing a one-hook hook
set and immediately uninstalling it deletes `settings.json` entirely
instead of restoring its pre-install content. -/
theorem install_uninstall_roundtrip_counterexample :
    uninstallHookSet
      ⟨some (installHookSet (some ⟨none, [("model", JVal.str "opus")]⟩)
          none ⟨none, none, none, [("PreToolUse", JVal.null)]⟩ [] "obs"
          []).1,
       some (installHookSet (some ⟨none, [("model", JVal.str "opus")]⟩)
          none ⟨none, none, none, [("PreToolUse", JVal.null)]⟩ [] "obs"
          []).2,
       FsTree.node []⟩ "obs" = .ok ⟨none, none, FsTree.node []⟩ ∧
    some (⟨none, [("model", JVal.str "opus")]⟩ : SettingsStore) ≠
      (none : Option SettingsStore) :=
  ⟨by rfl, by simp⟩

/-- C1 amended: for a hook set with no interactive flow (distinct declared
event types), install followed immediately by uninstall of the same name
restores both stores to their exact pre-install parsed content or absence,
provided the pre-install stores were not in one of the shapes the
uninstall collapses: the Metadata Store, when present, must be nonempty
and not already contain the name, and the Settings Store, when present,
must carry a nonempty `hooks` object with no empty list under an event
type the hook set declares.  (Byte-exact restoration additionally needs
the pre-install files to be in the installer's own serialization format,
which the embedding does not model.) -/
theorem install_uninstall_roundtrip (settings0 : Option SettingsStore)
    (metadata0 : Option MetadataStore) (cfg : HookSetConfig)
    (inputs : List (String × String)) (name : String)
    (files : List (List String))
    (hnd : (keysOf cfg.hooks).Nodup)
    (hmeta : metadata0 = none ∨ ∃ m, metadata0 = some m ∧
      lookupKey m.installed_hook_sets name = none ∧
      m.installed_hook_sets ≠ [])
    (hset : settings0 = none ∨ ∃ S hl, settings0 = some S ∧
      S.hooks = some hl ∧ hl ≠ [] ∧
      (∀ t l, lookupKey hl t = some l → t ∈ keysOf cfg.hooks → l ≠ [])) :
    RoundTripRestores settings0 metadata0 cfg inputs name files := by
  unfold RoundTripRestores
  intro tree
  rcases hset with rfl | ⟨S, hl, rfl, hSh, hlne, hcond⟩
  · have hrr := removeRecordedEntries_addEntries inputs cfg.hooks [] hnd
      (by intro t l hlk _; simp [lookupKey] at hlk)
    rcases hmeta with rfl | ⟨m, rfl, hmlook, hmne⟩
    · simp [installHookSet, uninstallHookSet, Except.map,
        lookupKey_setKey_self, hrr, setKey, eraseKey, lookupKey]
    · obtain ⟨mi⟩ := m
      have hmln : lookupKey mi name = none := hmlook
      have hnm : name ∉ keysOf mi := not_mem_keysOf_of_lookupKey_none hmln
      have hsk : ∀ v, setKey mi name v = mi ++ [(name, v)] :=
        fun v => setKey_of_not_mem mi name v hnm
      have her : ∀ v, eraseKey (mi ++ [(name, v)]) name = mi :=
        fun v => eraseKey_append_of_not_mem mi name v hnm
      have halk : ∀ v, lookupKey (mi ++ [(name, v)]) name = some v :=
        fun v => lookupKey_append_of_not_mem mi name v hnm
      have hmine : mi ≠ [] := hmne
      have hie : mi.isEmpty = false := by
        cases mi with
        | nil => exact absurd rfl hmine
        | cons a t => rfl
      simp [installHookSet, uninstallHookSet, Except.map,
        lookupKey_setKey_self, hrr, hsk, her, halk, hie]
  · obtain ⟨hooksS, extraS⟩ := S
    have hSh' : hooksS = some hl := hSh
    subst hSh'
    have hrr := removeRecordedEntries_addEntries inputs cfg.hooks hl hnd
      hcond
    have hlie : hl.isEmpty = false := by
      cases hl with
      | nil => exact absurd rfl hlne
      | cons a t => rfl
    rcases hmeta with rfl | ⟨m, rfl, hmlook, hmne⟩
    · simp [installHookSet, uninstallHookSet, Except.map,
        lookupKey_setKey_self, hrr, hlie, setKey, eraseKey, lookupKey]
    · obtain ⟨mi⟩ := m
      have hmln : lookupKey mi name = none := hmlook
      have hnm : name ∉ keysOf mi := not_mem_keysOf_of_lookupKey_none hmln
      have hsk : ∀ v, setKey mi name v = mi ++ [(name, v)] :=
        fun v => setKey_of_not_mem mi name v hnm
      have her : ∀ v, eraseKey (mi ++ [(name, v)]) name = mi :=
        fun v => eraseKey_append_of_not_mem mi name v hnm
      have halk : ∀ v, lookupKey (mi ++ [(name, v)]) name = some v :=
        fun v => lookupKey_append_of_not_mem mi name v hnm
      have hmine : mi ≠ [] := hmne
      have hie : mi.isEmpty = false := by
        cases mi with
        | nil => exact absurd rfl hmine
        | cons a t => rfl
      simp [installHookSet, uninstallHookSet, Except.map,
        lookupKey_setKey_self, hrr, hlie, hsk, her, halk, hie]

/-- Witness for the amended C1: a target with a pre-existing settings
file (a host member plus one foreign hook entry under `Stop`) and a
metadata store recording a different hook set. -/
theorem install_uninstall_roundtrip_witness :
    (keysOf [("PreToolUse", JVal.null)]).Nodup ∧
    (some (⟨[("other", HookRecord.mk [] [] [] [])]⟩ : MetadataStore) =
        none ∨
      ∃ m, some (⟨[("other", HookRecord.mk [] [] [] [])]⟩ :
          MetadataStore) = some m ∧
        lookupKey m.installed_hook_sets "obs" = none ∧
        m.installed_hook_sets ≠ []) ∧
    (some (⟨some [("Stop", [JVal.null])],
        [("model", JVal.str "opus")]⟩ : SettingsStore) = none ∨
      ∃ S hl, some (⟨some [("Stop", [JVal.null])],
          [("model", JVal.str "opus")]⟩ : SettingsStore) = some S ∧
        S.hooks = some hl ∧ hl ≠ [] ∧
        (∀ t l, lookupKey hl t = some l →
          t ∈ keysOf [("PreToolUse", JVal.null)] → l ≠ [])) ∧
    RoundTripRestores
      (some ⟨some [("Stop", [JVal.null])], [("model", JVal.str "opus")]⟩)
      (some ⟨[("other", HookRecord.mk [] [] [] [])]⟩)
      ⟨none, none, none, [("PreToolUse", JVal.null)]⟩ [] "obs" [] := by
  have hc : ∀ t l, lookupKey [("Stop", [JVal.null])] t = some l →
      t ∈ keysOf [("PreToolUse", JVal.null)] → l ≠ [] := by
    intro t l hlk _
    by_cases hst : "Stop" = t
    · simp only [lookupKey, hst, if_pos, Option.some.injEq] at hlk
      rw [← hlk]
      simp
    · simp [lookupKey, hst] at hlk
  refine ⟨by decide, Or.inr ⟨_, rfl, rfl, by simp⟩,
    Or.inr ⟨_, [("Stop", [JVal.null])], rfl, rfl, by simp, hc⟩,
    install_uninstall_roundtrip _ _ _ _ _ _ (by decide)
      (Or.inr ⟨_, rfl, rfl, by simp⟩)
      (Or.inr ⟨_, [("Stop", [JVal.null])], rfl, rfl, by simp, hc⟩)⟩

/-- Witness for the amended C4: a registered copy action first, then the
unregistered type `bogus_action`. -/
theorem unknown_action_aborts_flow_witness :
    (∃ b ∈ [ActionSpec.mk "copy_docker_infrastructure" "" "docker"
        "docker-infrastructure" [] ["source", "target"],
      ActionSpec.mk "bogus_action" "" "" "" [] []],
      b.type ∉ registeredActionTypes) ∧
    UnknownActionAbort alwaysEnv [] .default
      (ActionSpec.mk "copy_docker_infrastructure" "" "docker"
        "docker-infrastructure" [] ["source", "target"])
      [ActionSpec.mk "bogus_action" "" "" "" [] []] :=
  ⟨⟨ActionSpec.mk "bogus_action" "" "" "" [] [], by decide, by decide⟩,
   unknown_action_aborts_flow _ _ _ _ _
     ⟨ActionSpec.mk "bogus_action" "" "" "" [] [], by decide, by decide⟩⟩

end IowarpHooks
